import Mathlib

/-!
Verification of the adversarial-search core of the Isolation game agent
(`my_custom_player`): alpha-beta minimax (`max_value`/`min_value` with the
`alpha_beta_search` driver), the negamax variant (`NegamaxAlphaBeta`), the
heuristic evaluators (`score`, `score2`, `custom_heuristic`), Monte Carlo
tree search (`mcts` with `tree_policy`, `default_policy`, `backup`), and the
agent entry point (`get_action`).

The repository ships this module only as a compiled, text-mangled
`.cpython-35.pyc` artifact whose bytecode is unrecoverable (the binary was
passed through a UTF-8/CRLF conversion); only the symbol table survives.
Every definition below is therefore modelled from the specification's
description of each routine, keeping the names recovered from the compiled
artifact.  The game state is the external capability interface of spec §3.
-/

namespace Isolation

/-- Extended search values: integers together with `-inf` and `+inf`, the
initial alpha/beta bounds of the alpha-beta routines. -/
abbrev EV : Type := WithBot (WithTop ℤ)

/-- Embed a plain integer score/utility into the extended value order. -/
def iv (v : ℤ) : EV := ((v : WithTop ℤ) : WithBot (WithTop ℤ))

/-- Negation on extended values (`-(-inf) = +inf`), used by negamax. -/
def nega (x : EV) : EV :=
  WithBot.recBotCoe (⊤ : EV)
    (fun y => WithTop.recTopCoe (⊥ : EV) (fun v : ℤ => iv (-v)) y) x

theorem nega_bot : nega (⊥ : EV) = ⊤ := rfl

theorem nega_top : nega (⊤ : EV) = ⊥ := rfl

theorem nega_iv (v : ℤ) : nega (iv v) = iv (-v) := rfl

theorem ev_cases (x : EV) : x = ⊥ ∨ x = ⊤ ∨ ∃ v : ℤ, x = iv v := by
  induction x using WithBot.recBotCoe with
  | bot => exact Or.inl rfl
  | coe y =>
    induction y using WithTop.recTopCoe with
    | top => exact Or.inr (Or.inl rfl)
    | coe v => exact Or.inr (Or.inr ⟨v, rfl⟩)

theorem iv_le_iv {v w : ℤ} : iv v ≤ iv w ↔ v ≤ w := by
  simp [iv, WithBot.coe_le_coe, WithTop.coe_le_coe]

theorem iv_lt_iv {v w : ℤ} : iv v < iv w ↔ v < w := by
  simp [iv, WithBot.coe_lt_coe, WithTop.coe_lt_coe]

theorem bot_lt_iv (v : ℤ) : (⊥ : EV) < iv v := WithBot.bot_lt_coe _

theorem iv_lt_top (v : ℤ) : iv v < (⊤ : EV) :=
  WithBot.coe_lt_coe.mpr (WithTop.coe_lt_top v)

theorem iv_ne_bot (v : ℤ) : iv v ≠ (⊥ : EV) := (bot_lt_iv v).ne'

theorem iv_ne_top (v : ℤ) : iv v ≠ (⊤ : EV) := (iv_lt_top v).ne

theorem ev_bot_lt_top : (⊥ : EV) < ⊤ :=
  (bot_lt_iv 0).trans (iv_lt_top 0)

theorem nega_nega (x : EV) : nega (nega x) = x := by
  rcases ev_cases x with rfl | rfl | ⟨v, rfl⟩ <;>
    simp [nega_bot, nega_top, nega_iv]

theorem nega_le_nega_iff (x y : EV) : nega x ≤ nega y ↔ y ≤ x := by
  rcases ev_cases x with rfl | rfl | ⟨v, rfl⟩ <;>
    rcases ev_cases y with rfl | rfl | ⟨w, rfl⟩ <;>
      simp [nega_bot, nega_top, nega_iv, iv_le_iv, top_le_iff, le_bot_iff,
        iv_ne_top, iv_ne_bot, (bot_lt_iv 0).ne, (iv_lt_top 0).ne]

theorem nega_lt_nega_iff (x y : EV) : nega x < nega y ↔ y < x := by
  rw [lt_iff_le_not_le, lt_iff_le_not_le, nega_le_nega_iff, nega_le_nega_iff]

theorem nega_min (x y : EV) : nega (min x y) = max (nega x) (nega y) := by
  rcases le_total x y with h | h
  · rw [min_eq_left h, max_eq_left ((nega_le_nega_iff y x).mpr h)]
  · rw [min_eq_right h, max_eq_right ((nega_le_nega_iff x y).mpr h)]

theorem nega_max (x y : EV) : nega (max x y) = min (nega x) (nega y) := by
  rcases le_total x y with h | h
  · rw [max_eq_right h, min_eq_right ((nega_le_nega_iff y x).mpr h)]
  · rw [max_eq_left h, min_eq_left ((nega_le_nega_iff x y).mpr h)]

/-- Modelled from the spec (§3, §6): the external Game State capability
interface consumed by the search core.  `locs` gives each player's current
location and `liberties` the follow-up locations reachable from a location;
`prev_loc` is the opponent's prior location read by the aggressive
heuristic's chase bonus (spec §4.1).  The concrete Isolation implementation
is not part of this repository's sources. -/
structure Game (σ : Type) (m : Type) where
  player_id : σ → Nat
  actions : σ → List m
  result : σ → m → σ
  terminal_test : σ → Bool
  utility : σ → Nat → ℤ
  ply_count : σ → Nat
  locs : σ → Nat → Nat
  liberties : σ → Nat → List Nat
  prev_loc : σ → Nat → Nat

variable {σ m : Type}

/-- Modelled from the spec (§4.1): the liberty-difference heuristic
`own_reachable_count(state) − opponent_reachable_count(state)` for player
`p` (the compiled artifact's `CustomPlayer.score`). -/
def score (G : Game σ m) (p : Nat) (s : σ) : ℤ :=
  ((G.liberties s (G.locs s p)).length : ℤ) -
    ((G.liberties s (G.locs s (1 - p))).length : ℤ)

/-- Modelled from the spec (§4.1): the single-side liberty heuristic,
`own_reachable_count(state)` alone (the artifact's `CustomPlayer.score2`). -/
def score2 (G : Game σ m) (p : Nat) (s : σ) : ℤ :=
  ((G.liberties s (G.locs s p)).length : ℤ)

/-- Modelled from the spec (§4.1, §7): the denominator of the aggressive
heuristic's ratio term, defensively guarded as
`max(opponent_reachable_count, 1)` so it is never zero. -/
def custom_heuristic_denom (G : Game σ m) (p : Nat) (s : σ) : Nat :=
  max (G.liberties s (G.locs s (1 - p))).length 1

/-- Modelled from the spec (§4.1): the aggressive heuristic
(`CustomPlayer.custom_heuristic`).  At a terminal state it returns the exact
utility; otherwise it starts from zero, adds a fixed bonus of `2.0` when the
acting player's current location equals the opponent's prior location (the
chase signal), and adds the truncated ratio
`int(own_reachable_count / max(opponent_reachable_count, 1))`. -/
def custom_heuristic (G : Game σ m) (p : Nat) (s : σ) : ℚ :=
  if G.terminal_test s then (G.utility s p : ℚ)
  else
    (if G.locs s p = G.prev_loc s (1 - p) then (2 : ℚ) else 0) +
      (((G.liberties s (G.locs s p)).length / custom_heuristic_denom G p s : ℕ) : ℚ)

/-!
Alpha-beta minimax (spec §4.2).  `max_value`/`min_value` are the two
mutually recursive functions of `CustomPlayer`; their iteration over the
action list, which threads the running best value and the tightening bound
and returns early on a cutoff, is made explicit as `max_loop`/`min_loop`,
parameterized by the child evaluator (`min_value` resp. `max_value` at the
remaining depth).  The heuristic is a parameter `hf` (player, then state),
instantiated with `score` by the agent; `p` is the maximizing player's id. -/

/-- Modelled from the spec (§4.2): the action loop of `max_value`, tracking
the running maximum `best`, updating alpha to the running maximum, and
returning immediately once the running value reaches beta.  `ev` evaluates
a child state at the current window. -/
def max_loop (G : Game σ m) (ev : σ → EV → EV → EV) (s : σ) :
    List m → EV → EV → EV → EV
  | [], _A, _B, best => best
  | a :: rest, A, B, best =>
    let v := ev (G.result s a) A B
    let best' := max best v
    if B ≤ best' then best'
    else max_loop G ev s rest (max A best') B best'

/-- Modelled from the spec (§4.2): the action loop of `min_value`, tracking
the running minimum, updating beta to the running minimum, and returning
immediately once the running value reaches alpha. -/
def min_loop (G : Game σ m) (ev : σ → EV → EV → EV) (s : σ) :
    List m → EV → EV → EV → EV
  | [], _A, _B, best => best
  | a :: rest, A, B, best =>
    let v := ev (G.result s a) A B
    let best' := min best v
    if best' ≤ A then best'
    else min_loop G ev s rest A (min B best') best'

mutual

/-- Modelled from the spec (§4.2): `CustomPlayer.max_value`.  Terminal
states yield the exact utility for `p`; depth zero yields the heuristic;
otherwise the maximum over children via `min_value` at depth `d - 1`, with
a beta cutoff. -/
def max_value (G : Game σ m) (hf : Nat → σ → ℤ) (p : Nat) (s : σ)
    (A B : EV) (d : Nat) : EV :=
  if G.terminal_test s then iv (G.utility s p)
  else
    match d with
    | 0 => iv (hf p s)
    | d' + 1 =>
      max_loop G (fun c A' B' => min_value G hf p c A' B' d') s
        (G.actions s) A B ⊥
termination_by structural d

/-- Modelled from the spec (§4.2): `CustomPlayer.min_value`, symmetric to
`max_value` with minimum tracking and an alpha cutoff. -/
def min_value (G : Game σ m) (hf : Nat → σ → ℤ) (p : Nat) (s : σ)
    (A B : EV) (d : Nat) : EV :=
  if G.terminal_test s then iv (G.utility s p)
  else
    match d with
    | 0 => iv (hf p s)
    | d' + 1 =>
      min_loop G (fun c A' B' => max_value G hf p c A' B' d') s
        (G.actions s) A B ⊤
termination_by structural d

end

/-!
Unpruned exhaustive minimax over the same tree and depth: the reference the
spec measures alpha-beta against (spec §8, correctness of pruning).  Same
terminal, depth-zero and child evaluation as §4.2, but no bounds and no
cutoff. -/

/-- Exhaustive maximum over all children, no pruning. -/
def mm_max_loop (G : Game σ m) (tv : σ → EV) (s : σ) :
    List m → EV → EV
  | [], best => best
  | a :: rest, best => mm_max_loop G tv s rest (max best (tv (G.result s a)))

/-- Exhaustive minimum over all children, no pruning. -/
def mm_min_loop (G : Game σ m) (tv : σ → EV) (s : σ) :
    List m → EV → EV
  | [], best => best
  | a :: rest, best => mm_min_loop G tv s rest (min best (tv (G.result s a)))

mutual

/-- Exhaustive minimax value at a maximizing node (the spec's unpruned
reference search, §8). -/
def mm_max (G : Game σ m) (hf : Nat → σ → ℤ) (p : Nat) (s : σ)
    (d : Nat) : EV :=
  if G.terminal_test s then iv (G.utility s p)
  else
    match d with
    | 0 => iv (hf p s)
    | d' + 1 => mm_max_loop G (fun c => mm_min G hf p c d') s (G.actions s) ⊥
termination_by structural d

/-- Exhaustive minimax value at a minimizing node. -/
def mm_min (G : Game σ m) (hf : Nat → σ → ℤ) (p : Nat) (s : σ)
    (d : Nat) : EV :=
  if G.terminal_test s then iv (G.utility s p)
  else
    match d with
    | 0 => iv (hf p s)
    | d' + 1 => mm_min_loop G (fun c => mm_max G hf p c d') s (G.actions s) ⊤
termination_by structural d

end

/-- Modelled from the spec (§4.2): the root loop of `alpha_beta_search`:
evaluate each root action via the child evaluator at the current alpha and
an infinite beta, keep the action whose value is strictly greatest, and
tighten alpha after each evaluated child. -/
def ab_loop (G : Game σ m) (ev : σ → EV → EV → EV) (s : σ) :
    List m → EV → EV × Option m → EV × Option m
  | [], _A, acc => acc
  | a :: rest, A, acc =>
    let v := ev (G.result s a) A ⊤
    if acc.1 < v then ab_loop G ev s rest (max A v) (v, some a)
    else ab_loop G ev s rest (max A v) acc

/-- Modelled from the spec (§4.2): `CustomPlayer.alpha_beta_search`.
Initializes alpha and the best score to `-inf` and the best move to the
no-action sentinel (`none`), evaluates each root action via
`min_value(result, alpha, +inf, depth - 1)`, and returns the best (score,
action) pair — the sentinel when no actions exist. -/
def alpha_beta_search (G : Game σ m) (hf : Nat → σ → ℤ) (p : Nat) (s : σ)
    (d : Nat) : EV × Option m :=
  ab_loop G (fun c A' B' => min_value G hf p c A' B' (d - 1)) s
    (G.actions s) ⊥ (⊥, none)

/-- Root loop of the unpruned exhaustive search: the same strict-improvement
selection over the exhaustive child values. -/
def mm_search_loop (G : Game σ m) (tv : σ → EV) (s : σ) :
    List m → EV × Option m → EV × Option m
  | [], acc => acc
  | a :: rest, acc =>
    let v := tv (G.result s a)
    if acc.1 < v then mm_search_loop G tv s rest (v, some a)
    else mm_search_loop G tv s rest acc

/-- The unpruned exhaustive minimax driver over the same tree and depth
(the reference of spec §8). -/
def minimax_search (G : Game σ m) (hf : Nat → σ → ℤ) (p : Nat) (s : σ)
    (d : Nat) : EV × Option m :=
  mm_search_loop G (fun c => mm_min G hf p c (d - 1)) s (G.actions s) (⊥, none)

/-!
Correctness of alpha-beta pruning (spec §8): fail-soft bounds in the style
of Knuth-Moore relating the pruned value at a window `(A, B)` to the value
of the unpruned exhaustive search, followed by equality of the two root
drivers. -/

/-- Fail-soft window bounds: a pruned value `r` computed with bounds
`(A, B)` fails high (`B ≤ r`) only below the true value `v`, fails low
(`r ≤ A`) only above it, and is exact strictly inside the window. -/
def specTriple (r v A B : EV) : Prop :=
  (B ≤ r → r ≤ v) ∧ (r ≤ A → v ≤ r) ∧ (A < r → r < B → r = v)

theorem specTriple_refl (r A B : EV) : specTriple r r A B :=
  ⟨fun _ => le_rfl, fun _ => le_rfl, fun _ _ => rfl⟩

theorem mm_max_loop_max (G : Game σ m) (tv : σ → EV) (s : σ)
    (acts : List m) :
    ∀ x y : EV, mm_max_loop G tv s acts (max x y) =
      max x (mm_max_loop G tv s acts y) := by
  induction acts with
  | nil => intro x y; simp [mm_max_loop]
  | cons a rest ih =>
    intro x y
    simp only [mm_max_loop]
    rw [max_assoc, ih]

theorem mm_max_loop_decomp (G : Game σ m) (tv : σ → EV) (s : σ)
    (acts : List m) (best : EV) :
    mm_max_loop G tv s acts best =
      max best (mm_max_loop G tv s acts ⊥) := by
  have h := mm_max_loop_max G tv s acts best ⊥
  rwa [max_eq_left bot_le] at h

theorem le_mm_max_loop (G : Game σ m) (tv : σ → EV) (s : σ)
    (acts : List m) (best : EV) :
    best ≤ mm_max_loop G tv s acts best := by
  rw [mm_max_loop_decomp]
  exact le_max_left _ _

theorem mm_min_loop_min (G : Game σ m) (tv : σ → EV) (s : σ)
    (acts : List m) :
    ∀ x y : EV, mm_min_loop G tv s acts (min x y) =
      min x (mm_min_loop G tv s acts y) := by
  induction acts with
  | nil => intro x y; simp [mm_min_loop]
  | cons a rest ih =>
    intro x y
    simp only [mm_min_loop]
    rw [min_assoc, ih]

theorem mm_min_loop_decomp (G : Game σ m) (tv : σ → EV) (s : σ)
    (acts : List m) (best : EV) :
    mm_min_loop G tv s acts best =
      min best (mm_min_loop G tv s acts ⊤) := by
  have h := mm_min_loop_min G tv s acts best ⊤
  rwa [min_eq_left le_top] at h

theorem mm_min_loop_le (G : Game σ m) (tv : σ → EV) (s : σ)
    (acts : List m) (best : EV) :
    mm_min_loop G tv s acts best ≤ best := by
  rw [mm_min_loop_decomp]
  exact min_le_left _ _

theorem max_loop_spec (G : Game σ m) (ev : σ → EV → EV → EV) (tv : σ → EV)
    (hmin : ∀ c A B, A < B → specTriple (ev c A B) (tv c) A B) (s : σ) :
    ∀ (acts : List m) (best A B : EV), best ≤ A → A < B →
      specTriple (max_loop G ev s acts A B best)
        (mm_max_loop G tv s acts best) A B := by
  intro acts
  induction acts with
  | nil =>
    intro best A B hbA hAB
    simp only [max_loop, mm_max_loop]
    exact specTriple_refl _ _ _
  | cons a rest ih =>
    intro best A B hbA hAB
    have hbB : best < B := lt_of_le_of_lt hbA hAB
    obtain ⟨h1, h2, h3⟩ := hmin (G.result s a) A B hAB
    simp only [max_loop, mm_max_loop]
    set v := ev (G.result s a) A B with hv
    set u := tv (G.result s a) with hu
    by_cases hcut : B ≤ max best v
    · rw [if_pos hcut]
      have hvB : B ≤ v := by
        by_contra hc
        exact absurd hcut (not_le.mpr (max_lt hbB (not_le.mp hc)))
      have hbv : max best v = v := max_eq_right ((hbB.trans_le hvB).le)
      rw [hbv]
      refine ⟨fun _ => ?_, fun hA => ?_, fun _ hrB => absurd hrB (not_lt.mpr hvB)⟩
      · exact (h1 hvB).trans ((le_max_right best u).trans (le_mm_max_loop G tv s rest _))
      · exact absurd (lt_of_lt_of_le hAB (hvB.trans hA)) (lt_irrefl A)
    · rw [if_neg hcut]
      have hb'B : max best v < B := not_le.mp hcut
      obtain ⟨i1, i2, i3⟩ :=
        ih (max best v) (max A (max best v)) B (le_max_right _ _) (max_lt hAB hb'B)
      rw [mm_max_loop_decomp G tv s rest (max best v)] at i1 i2 i3
      set M := mm_max_loop G tv s rest ⊥ with hM
      set r := max_loop G ev s rest (max A (max best v)) B (max best v) with hr
      rw [mm_max_loop_decomp G tv s rest (max best u)]
      refine ⟨?_, ?_, ?_⟩
      · intro hBr
        have hub : r ≤ max (max best v) M := i1 hBr
        have hMr : r ≤ M := by
          rcases le_max_iff.mp hub with h | h
          · exact absurd (hb'B.trans_le hBr) (not_lt.mpr h)
          · exact h
        exact hMr.trans (le_max_right _ _)
      · intro hrA
        have hw2 : max (max best v) M ≤ r := i2 (hrA.trans (le_max_left _ _))
        have hb'r : max best v ≤ r := (le_max_left _ _).trans hw2
        have hMr : M ≤ r := (le_max_right _ _).trans hw2
        have hvr : v ≤ r := (le_max_right best v).trans hb'r
        have hur : u ≤ r := (h2 (hvr.trans hrA)).trans hvr
        exact max_le (max_le ((le_max_left best v).trans hb'r) hur) hMr
      · intro hAr hrB
        by_cases hrA2 : r ≤ max A (max best v)
        · have hw2 : max (max best v) M ≤ r := i2 hrA2
          have hb'r : max best v ≤ r := (le_max_left _ _).trans hw2
          have hMr : M ≤ r := (le_max_right _ _).trans hw2
          have hrb' : r ≤ max best v := by
            rcases max_choice A (max best v) with hc | hc
            · rw [hc] at hrA2
              exact absurd hAr (not_lt.mpr hrA2)
            · rwa [hc] at hrA2
          have hbr' : max best v = r := le_antisymm hb'r hrb'
          have hbestr : best < r := lt_of_le_of_lt hbA hAr
          have hvr : v = r := by
            rcases max_choice best v with hc | hc
            · rw [hc] at hbr'
              exact absurd hbr' hbestr.ne
            · rwa [hc] at hbr'
          have hur : u = r := by
            have h := h3 (hvr ▸ hAr) (hvr ▸ hrB)
            rw [hvr] at h
            exact h.symm
          rw [hur, max_eq_right hbestr.le, max_eq_left hMr]
        · have hA2r : max A (max best v) < r := not_le.mp hrA2
          have hi3 : r = max (max best v) M := i3 hA2r hrB
          by_cases hvA : v ≤ A
          · have huv : u ≤ v := h2 hvA
            have hb'A : max best v ≤ A := max_le hbA hvA
            have hb'r : max best v < r := lt_of_le_of_lt hb'A hAr
            have hrM : r = M := by
              rcases max_choice (max best v) M with hc | hc
              · rw [hc] at hi3
                exact absurd hi3.symm hb'r.ne
              · rwa [hc] at hi3
            have hbuA : max best u ≤ A := max_le hbA (huv.trans hvA)
            rw [max_eq_right (hbuA.trans (le_of_lt (hAr.trans_eq hrM)))]
            exact hrM
          · have hAv : A < v := not_le.mp hvA
            have hvB2 : v < B := lt_of_le_of_lt (le_max_right best v) hb'B
            have huv : v = u := h3 hAv hvB2
            rw [← huv]
            exact hi3

theorem min_loop_spec (G : Game σ m) (ev : σ → EV → EV → EV) (tv : σ → EV)
    (hmax : ∀ c A B, A < B → specTriple (ev c A B) (tv c) A B) (s : σ) :
    ∀ (acts : List m) (best A B : EV), B ≤ best → A < B →
      specTriple (min_loop G ev s acts A B best)
        (mm_min_loop G tv s acts best) A B := by
  intro acts
  induction acts with
  | nil =>
    intro best A B hBb hAB
    simp only [min_loop, mm_min_loop]
    exact specTriple_refl _ _ _
  | cons a rest ih =>
    intro best A B hBb hAB
    have hAb : A < best := lt_of_lt_of_le hAB hBb
    obtain ⟨h1, h2, h3⟩ := hmax (G.result s a) A B hAB
    simp only [min_loop, mm_min_loop]
    set v := ev (G.result s a) A B with hv
    set u := tv (G.result s a) with hu
    by_cases hcut : min best v ≤ A
    · rw [if_pos hcut]
      have hvA : v ≤ A := by
        by_contra hc
        exact absurd hcut (not_le.mpr (lt_min hAb (not_le.mp hc)))
      have hbv : min best v = v := min_eq_right ((hvA.trans_lt hAb).le)
      rw [hbv]
      refine ⟨fun hB => ?_, fun _ => ?_, fun hAr _ => absurd hAr (not_lt.mpr hvA)⟩
      · exact absurd (lt_of_le_of_lt (hB.trans hvA) hAB) (lt_irrefl B)
      · exact (mm_min_loop_le G tv s rest _).trans ((min_le_right best u).trans (h2 hvA))
    · rw [if_neg hcut]
      have hAb' : A < min best v := not_le.mp hcut
      obtain ⟨i1, i2, i3⟩ :=
        ih (min best v) A (min B (min best v)) (min_le_right _ _) (lt_min hAB hAb')
      rw [mm_min_loop_decomp G tv s rest (min best v)] at i1 i2 i3
      set M := mm_min_loop G tv s rest ⊤ with hM
      set r := min_loop G ev s rest A (min B (min best v)) (min best v) with hr
      rw [mm_min_loop_decomp G tv s rest (min best u)]
      refine ⟨?_, ?_, ?_⟩
      · intro hBr
        have hw2 : r ≤ min (min best v) M := i1 ((min_le_left _ _).trans hBr)
        have hrb' : r ≤ min best v := hw2.trans (min_le_left _ _)
        have hrM : r ≤ M := hw2.trans (min_le_right _ _)
        have hrv : r ≤ v := hrb'.trans (min_le_right best v)
        have hru : r ≤ u := hrv.trans (h1 (hBr.trans hrv))
        exact le_min (le_min (hrb'.trans (min_le_left best v)) hru) hrM
      · intro hrA
        have hub : min (min best v) M ≤ r := i2 hrA
        have hMr : M ≤ r := by
          rcases min_le_iff.mp hub with h | h
          · exact absurd (hrA.trans_lt hAb') (not_lt.mpr h)
          · exact h
        exact (min_le_right _ _).trans hMr
      · intro hAr hrB
        by_cases hB2r : min B (min best v) ≤ r
        · have hw2 : r ≤ min (min best v) M := i1 hB2r
          have hrb' : r ≤ min best v := hw2.trans (min_le_left _ _)
          have hrM : r ≤ M := hw2.trans (min_le_right _ _)
          have hb'r : min best v ≤ r := by
            rcases min_choice B (min best v) with hc | hc
            · rw [hc] at hB2r
              exact absurd hrB (not_lt.mpr hB2r)
            · rwa [hc] at hB2r
          have hbr' : min best v = r := le_antisymm hb'r hrb'
          have hbestr : r < best := lt_of_lt_of_le hrB hBb
          have hvr : v = r := by
            rcases min_choice best v with hc | hc
            · rw [hc] at hbr'
              exact absurd hbr' hbestr.ne'
            · rwa [hc] at hbr'
          have hur : u = r := by
            have h := h3 (hvr ▸ hAr) (hvr ▸ hrB)
            rw [hvr] at h
            exact h.symm
          rw [hur, min_eq_right hbestr.le, min_eq_left hrM]
        · have hrB2 : r < min B (min best v) := not_le.mp hB2r
          have hi3 : r = min (min best v) M := i3 hAr hrB2
          by_cases hBv : B ≤ v
          · have huv : v ≤ u := h1 hBv
            have hBb' : B ≤ min best v := le_min hBb hBv
            have hrb' : r < min best v := lt_of_lt_of_le hrB hBb'
            have hrM : r = M := by
              rcases min_choice (min best v) M with hc | hc
              · rw [hc] at hi3
                exact absurd hi3.symm hrb'.ne'
              · rwa [hc] at hi3
            have hBbu : B ≤ min best u := le_min hBb (hBv.trans huv)
            rw [min_eq_right (le_of_lt ((hrM.symm.trans_lt hrB).trans_le hBbu))]
            exact hrM
          · have hvB : v < B := not_le.mp hBv
            have hAv : A < v := lt_of_lt_of_le hAb' (min_le_right best v)
            have huv : v = u := h3 hAv hvB
            rw [← huv]
            exact hi3

/-- The fail-soft window bounds hold at every depth, for both
`max_value` and `min_value` against the exhaustive values. -/
theorem value_spec (G : Game σ m) (hf : Nat → σ → ℤ) (p : Nat) :
    ∀ d : Nat,
      (∀ s A B, A < B →
        specTriple (max_value G hf p s A B d) (mm_max G hf p s d) A B) ∧
      (∀ s A B, A < B →
        specTriple (min_value G hf p s A B d) (mm_min G hf p s d) A B) := by
  intro d
  induction d with
  | zero =>
    constructor
    · intro s A B _
      simp only [max_value, mm_max]
      exact specTriple_refl _ _ _
    · intro s A B _
      simp only [min_value, mm_min]
      exact specTriple_refl _ _ _
  | succ d' ih =>
    constructor
    · intro s A B hAB
      by_cases ht : G.terminal_test s
      · simp only [max_value, mm_max, ht, if_true]
        exact specTriple_refl _ _ _
      · simp only [max_value, mm_max, ht, if_false]
        exact max_loop_spec G _ _ (fun c A' B' h => ih.2 c A' B' h) s
          (G.actions s) ⊥ A B bot_le hAB
    · intro s A B hAB
      by_cases ht : G.terminal_test s
      · simp only [min_value, mm_min, ht, if_true]
        exact specTriple_refl _ _ _
      · simp only [min_value, mm_min, ht, if_false]
        exact min_loop_spec G _ _ (fun c A' B' h => ih.1 c A' B' h) s
          (G.actions s) ⊤ A B le_top hAB

/-- The pruned and the exhaustive root loops agree as long as alpha equals
the running best score, which the driver maintains. -/
theorem ab_loop_eq_mm (G : Game σ m) (ev : σ → EV → EV → EV) (tv : σ → EV)
    (hmin : ∀ c A B, A < B → specTriple (ev c A B) (tv c) A B) (s : σ) :
    ∀ (acts : List m) (acc : EV × Option m),
      ab_loop G ev s acts acc.1 acc = mm_search_loop G tv s acts acc := by
  intro acts
  induction acts with
  | nil => intro acc; simp [ab_loop, mm_search_loop]
  | cons a rest ih =>
    intro acc
    simp only [ab_loop, mm_search_loop]
    set v := ev (G.result s a) acc.1 ⊤ with hv
    set u := tv (G.result s a) with hu
    rcases lt_or_eq_of_le (le_top : acc.1 ≤ ⊤) with hlt | htop
    · obtain ⟨t1, t2, t3⟩ := hmin (G.result s a) acc.1 ⊤ hlt
      by_cases hvacc : acc.1 < v
      · have huv : v = u := by
          rcases lt_or_eq_of_le (le_top : v ≤ ⊤) with hvt | hvt
          · exact t3 hvacc hvt
          · have h : v ≤ u := t1 hvt.ge
            rw [hvt] at h ⊢
            exact (top_le_iff.mp h).symm
        rw [if_pos hvacc, if_pos (huv ▸ hvacc), max_eq_right hvacc.le, ← huv]
        exact ih (v, some a)
      · have hvle : v ≤ acc.1 := not_lt.mp hvacc
        have huacc : ¬ acc.1 < u := not_lt.mpr ((t2 hvle).trans hvle)
        rw [if_neg hvacc, if_neg huacc, max_eq_left hvle]
        exact ih acc
    · have h1 : ¬ acc.1 < v := htop ▸ not_top_lt
      have h2 : ¬ acc.1 < u := htop ▸ not_top_lt
      rw [if_neg h1, if_neg h2, max_eq_left (htop ▸ le_top)]
      exact ih acc

/-- Alpha-beta search and the unpruned exhaustive minimax driver return the
same (value, action) pair on every state and depth. -/
theorem alpha_beta_search_eq_minimax (G : Game σ m) (hf : Nat → σ → ℤ)
    (p : Nat) (s : σ) (d : Nat) :
    alpha_beta_search G hf p s d = minimax_search G hf p s d := by
  unfold alpha_beta_search minimax_search
  exact ab_loop_eq_mm G _ _
    (fun c A' B' h => (value_spec G hf p (d - 1)).2 c A' B' h) s
    (G.actions s) (⊥, none)

/-!
Negamax with alpha-beta pruning (spec §4.3): a single recursive function
exploiting the zero-sum identity, evaluating every node for its own acting
player, with the child window negated and the child value negated back. -/

/-- Modelled from the spec (§4.3): the action loop of the negamax function:
each child is evaluated at the negated window, its value negated, the
running maximum and alpha are updated, and the loop returns once alpha
reaches beta. -/
def nega_loop (G : Game σ m) (ev : σ → EV → EV → EV) (s : σ) :
    List m → EV → EV → EV → EV
  | [], _A, _B, best => best
  | a :: rest, A, B, best =>
    let v := nega (ev (G.result s a) (nega B) (nega A))
    let best' := max best v
    let A' := max A best'
    if B ≤ A' then best'
    else nega_loop G ev s rest A' B best'

/-- Modelled from the spec (§4.3): `CustomPlayer.NegamaxAlphaBeta`.  At a
terminal state or at depth zero it returns the signed utility/heuristic for
the node's acting player; otherwise the negamax maximum over children. -/
def NegamaxAlphaBeta (G : Game σ m) (hf : Nat → σ → ℤ) (s : σ)
    (A B : EV) (d : Nat) : EV :=
  if G.terminal_test s then iv (G.utility s (G.player_id s))
  else
    match d with
    | 0 => iv (hf (G.player_id s) s)
    | d' + 1 =>
      nega_loop G (fun c A' B' => NegamaxAlphaBeta G hf c A' B' d') s
        (G.actions s) A B ⊥
termination_by structural d

/-- Modelled from the spec (§4.3): the root loop of the negamax driver,
mirroring `ab_loop` but negating the child value returned by negamax before
comparing it against the running best score. -/
def negamax_search_loop (G : Game σ m) (ev : σ → EV → EV → EV) (s : σ) :
    List m → EV → EV × Option m → EV × Option m
  | [], _A, acc => acc
  | a :: rest, A, acc =>
    let v := nega (ev (G.result s a) (nega ⊤) (nega A))
    if acc.1 < v then negamax_search_loop G ev s rest (max A v) (v, some a)
    else negamax_search_loop G ev s rest (max A v) acc

/-- Modelled from the spec (§4.3): the negamax-with-alpha-beta driver,
mirroring `alpha_beta_search`'s root structure. -/
def negamax_search (G : Game σ m) (hf : Nat → σ → ℤ) (s : σ)
    (d : Nat) : EV × Option m :=
  negamax_search_loop G (fun c A' B' => NegamaxAlphaBeta G hf c A' B' (d - 1))
    s (G.actions s) ⊥ (⊥, none)

theorem nega_loop_eq_max_loop (G : Game σ m) (evn evm : σ → EV → EV → EV)
    (s : σ)
    (hev : ∀ (a : m) (A B : EV), A < B →
      evn (G.result s a) (nega B) (nega A) = nega (evm (G.result s a) A B)) :
    ∀ (acts : List m) (best A B : EV), best ≤ A → A < B →
      nega_loop G evn s acts A B best = max_loop G evm s acts A B best := by
  intro acts
  induction acts with
  | nil => intro best A B _ _; simp [nega_loop, max_loop]
  | cons a rest ih =>
    intro best A B hbA hAB
    simp only [nega_loop, max_loop]
    rw [hev a A B hAB, nega_nega]
    set v := evm (G.result s a) A B with hv
    have hA' : max A (max best v) = max A v := by
      rw [← max_assoc, max_eq_left hbA]
    have hcond : B ≤ max A (max best v) ↔ B ≤ max best v := by
      rw [hA']
      constructor
      · intro h
        rcases le_max_iff.mp h with h | h
        · exact absurd hAB (not_lt.mpr h)
        · exact le_max_of_le_right h
      · intro h
        rcases le_max_iff.mp h with h | h
        · exact absurd (lt_of_le_of_lt hbA hAB) (not_lt.mpr h)
        · exact le_max_of_le_right h
    by_cases hcut : B ≤ max best v
    · rw [if_pos (hcond.mpr hcut), if_pos hcut]
    · rw [if_neg (fun h => hcut (hcond.mp h)), if_neg hcut]
      exact ih (max best v) (max A (max best v)) B (le_max_right _ _)
        (max_lt hAB (not_le.mp hcut))

theorem nega_loop_eq_min_loop (G : Game σ m) (evn evm : σ → EV → EV → EV)
    (s : σ)
    (hev : ∀ (a : m) (A B : EV), A < B →
      evn (G.result s a) A B = evm (G.result s a) A B) :
    ∀ (acts : List m) (best A B : EV), B ≤ best → A < B →
      nega_loop G evn s acts (nega B) (nega A) (nega best) =
        nega (min_loop G evm s acts A B best) := by
  intro acts
  induction acts with
  | nil => intro best A B _ _; simp [nega_loop, min_loop]
  | cons a rest ih =>
    intro best A B hBb hAB
    simp only [nega_loop, min_loop]
    rw [nega_nega, nega_nega, hev a A B hAB]
    set v := evm (G.result s a) A B with hv
    rw [show max (nega best) (nega v) = nega (min best v) from (nega_min best v).symm]
    rw [show max (nega B) (nega (min best v)) = nega (min B (min best v)) from
      (nega_min B (min best v)).symm]
    have hcond : nega A ≤ nega (min B (min best v)) ↔ min best v ≤ A := by
      rw [nega_le_nega_iff]
      constructor
      · intro h
        rcases min_le_iff.mp h with h | h
        · exact absurd hAB (not_lt.mpr h)
        · exact h
      · intro h
        exact (min_le_right _ _).trans h
    by_cases hcut : min best v ≤ A
    · rw [if_pos (hcond.mpr hcut), if_pos hcut]
    · rw [if_neg (fun h => hcut (hcond.mp h)), if_neg hcut]
      exact ih (min best v) A (min B (min best v)) (min_le_right _ _)
        (lt_min hAB (not_le.mp hcut))

/-- Identify the acting player at a node the mover of which is not `p`. -/
theorem other_player {q p : Nat} (hq : q ≤ 1) (hp : p ≤ 1) (hne : q ≠ p) :
    q = 1 - p := by omega

/-- Negamax against min/max: at a proper window, `NegamaxAlphaBeta` at a
node computes `max_value` when the acting player is the maximizing player
`p`, and the negated `min_value` at the negated window otherwise. -/
theorem NegamaxAlphaBeta_eq_minmax (G : Game σ m) (hf : Nat → σ → ℤ)
    (p : Nat)
    (hple : ∀ s : σ, G.player_id s ≤ 1)
    (halt : ∀ (s : σ) (a : m), G.player_id (G.result s a) = 1 - G.player_id s)
    (hzs : ∀ s : σ, G.utility s 0 = -G.utility s 1)
    (hanti : ∀ (s : σ) (q : Nat), q ≤ 1 → hf q s = -(hf (1 - q) s))
    (hp : p ≤ 1) :
    ∀ (d : Nat) (s : σ) (A B : EV), A < B →
      NegamaxAlphaBeta G hf s A B d =
        (if G.player_id s = p then max_value G hf p s A B d
         else nega (min_value G hf p s (nega B) (nega A) d)) := by
  have hutil : ∀ s : σ, G.player_id s ≠ p →
      G.utility s (G.player_id s) = -(G.utility s p) := by
    intro s hne
    have hq := other_player (hple s) hp hne
    rcases Nat.le_one_iff_eq_zero_or_eq_one.mp hp with rfl | rfl
    · rw [hq, Nat.sub_zero]
      have h := hzs s
      omega
    · rw [hq, Nat.sub_self]
      have h := hzs s
      omega
  have hheur : ∀ s : σ, G.player_id s ≠ p →
      hf (G.player_id s) s = -(hf p s) := by
    intro s hne
    have hq := other_player (hple s) hp hne
    have h := hanti s (G.player_id s) (hple s)
    rw [hq] at h
    have hpp : 1 - (1 - p) = p := by omega
    rw [hpp] at h
    rw [hq]
    exact h
  intro d
  induction d with
  | zero =>
    intro s A B _
    by_cases hps : G.player_id s = p
    · rw [if_pos hps]
      simp only [NegamaxAlphaBeta, max_value, hps]
    · rw [if_neg hps]
      simp only [NegamaxAlphaBeta, min_value]
      by_cases ht : G.terminal_test s
      · simp [ht, nega_iv, hutil s hps]
      · simp [ht, nega_iv, hheur s hps]
  | succ d' ih =>
    intro s A B hAB
    by_cases ht : G.terminal_test s
    · by_cases hps : G.player_id s = p
      · rw [if_pos hps]
        simp only [NegamaxAlphaBeta, max_value, ht, if_true, hps]
      · rw [if_neg hps]
        simp only [NegamaxAlphaBeta, min_value]
        simp [ht, nega_iv, hutil s hps]
    · by_cases hps : G.player_id s = p
      · rw [if_pos hps]
        simp only [NegamaxAlphaBeta, max_value, ht, if_false]
        refine nega_loop_eq_max_loop G _ _ s ?_ (G.actions s) ⊥ A B bot_le hAB
        intro a A' B' hAB'
        have hwin : nega B' < nega A' := (nega_lt_nega_iff _ _).mpr hAB'
        show NegamaxAlphaBeta G hf (G.result s a) (nega B') (nega A') d' =
          nega (min_value G hf p (G.result s a) A' B' d')
        rw [ih (G.result s a) (nega B') (nega A') hwin]
        have hpc : G.player_id (G.result s a) ≠ p := by
          rw [halt s a, hps]
          omega
        rw [if_neg hpc, nega_nega, nega_nega]
      · rw [if_neg hps]
        have hq : G.player_id s = 1 - p := other_player (hple s) hp hps
        simp only [NegamaxAlphaBeta, min_value, ht, if_false]
        have h := nega_loop_eq_min_loop G
          (fun c A' B' => NegamaxAlphaBeta G hf c A' B' d')
          (fun c A' B' => max_value G hf p c A' B' d') s ?_
          (G.actions s) ⊤ (nega B) (nega A)
          le_top ((nega_lt_nega_iff _ _).mpr hAB)
        · rw [nega_nega, nega_nega, nega_top] at h
          exact h
        · intro a A' B' hAB'
          show NegamaxAlphaBeta G hf (G.result s a) A' B' d' =
            max_value G hf p (G.result s a) A' B' d'
          rw [ih (G.result s a) A' B' hAB']
          have hpc : G.player_id (G.result s a) = p := by
            rw [halt s a, hq]
            omega
          rw [if_pos hpc]

theorem negamax_search_loop_eq_ab (G : Game σ m)
    (evn evm : σ → EV → EV → EV) (s : σ)
    (hev : ∀ (a : m) (A : EV), A < ⊤ →
      nega (evn (G.result s a) (nega ⊤) (nega A)) = evm (G.result s a) A ⊤) :
    ∀ (acts : List m) (acc : EV × Option m),
      negamax_search_loop G evn s acts acc.1 acc =
        ab_loop G evm s acts acc.1 acc := by
  intro acts
  induction acts with
  | nil => intro acc; simp [negamax_search_loop, ab_loop]
  | cons a rest ih =>
    intro acc
    simp only [negamax_search_loop, ab_loop]
    rcases lt_or_eq_of_le (le_top : acc.1 ≤ ⊤) with hlt | htop
    · rw [hev a acc.1 hlt]
      set v := evm (G.result s a) acc.1 ⊤ with hv
      by_cases hvacc : acc.1 < v
      · rw [if_pos hvacc, if_pos hvacc]
        have := ih (v, some a)
        rwa [max_eq_right hvacc.le]
      · rw [if_neg hvacc, if_neg hvacc]
        have := ih acc
        rwa [max_eq_left (not_lt.mp hvacc)]
    · have h1 : ¬ acc.1 < nega (evn (G.result s a) (nega ⊤) (nega acc.1)) := by
        rw [htop]
        exact not_top_lt
      have h2 : ¬ acc.1 < evm (G.result s a) acc.1 ⊤ := by
        rw [htop]
        exact not_top_lt
      rw [if_neg h1, if_neg h2]
      have e1 : max acc.1 (nega (evn (G.result s a) (nega ⊤) (nega acc.1))) = acc.1 := by
        rw [htop]
        exact max_eq_left le_top
      have e2 : max acc.1 (evm (G.result s a) acc.1 ⊤) = acc.1 := by
        rw [htop]
        exact max_eq_left le_top
      rw [e1, e2]
      exact ih acc

/-- The negamax driver and the alpha-beta minimax driver coincide — value
and action — on every zero-sum game, with the maximizing player taken to be
the root's acting player. -/
theorem negamax_search_eq_alpha_beta (G : Game σ m) (hf : Nat → σ → ℤ)
    (hple : ∀ s : σ, G.player_id s ≤ 1)
    (halt : ∀ (s : σ) (a : m), G.player_id (G.result s a) = 1 - G.player_id s)
    (hzs : ∀ s : σ, G.utility s 0 = -G.utility s 1)
    (hanti : ∀ (s : σ) (q : Nat), q ≤ 1 → hf q s = -(hf (1 - q) s))
    (s : σ) (d : Nat) :
    negamax_search G hf s d =
      alpha_beta_search G hf (G.player_id s) s d := by
  unfold negamax_search alpha_beta_search
  refine negamax_search_loop_eq_ab G _ _ s ?_ (G.actions s) (⊥, none)
  intro a A hA
  have hwin : nega ⊤ < nega A := (nega_lt_nega_iff _ _).mpr hA
  rw [NegamaxAlphaBeta_eq_minmax G hf (G.player_id s) hple halt hzs hanti
    (hple s) (d - 1) (G.result s a) (nega ⊤) (nega A) hwin]
  have hpc : G.player_id (G.result s a) ≠ G.player_id s := by
    rw [halt s a]
    have := hple s
    omega
  rw [if_neg hpc, nega_nega, nega_nega, nega_nega]

/-!
Tie-breaking at the root (spec §4.2's numeric contract): the exhaustive
driver — and hence, by `alpha_beta_search_eq_minimax`, the alpha-beta
driver — keeps the first action whose value strictly exceeds every earlier
value and is not exceeded later. -/

theorem mm_search_loop_char (G : Game σ m) (tv : σ → EV) (s : σ) :
    ∀ (acts : List m) (v0 : EV) (m0 : Option m),
      (mm_search_loop G tv s acts (v0, m0) = (v0, m0) ∧
        ∀ b ∈ acts, tv (G.result s b) ≤ v0) ∨
      (∃ a pre post, acts = pre ++ a :: post ∧
        mm_search_loop G tv s acts (v0, m0) = (tv (G.result s a), some a) ∧
        v0 < tv (G.result s a) ∧
        (∀ b ∈ pre, tv (G.result s b) < tv (G.result s a)) ∧
        (∀ b ∈ post, tv (G.result s b) ≤ tv (G.result s a))) := by
  intro acts
  induction acts with
  | nil =>
    intro v0 m0
    exact Or.inl ⟨by simp [mm_search_loop], by simp⟩
  | cons a rest ih =>
    intro v0 m0
    by_cases h : v0 < tv (G.result s a)
    · rcases ih (tv (G.result s a)) (some a) with ⟨heq, hall⟩ | hr
      · refine Or.inr ⟨a, [], rest, by simp, ?_, h, by simp, hall⟩
        simp only [mm_search_loop, if_pos h]
        exact heq
      · obtain ⟨a', pre', post', hsplit, hres, hlt, hpre, hpost⟩ := hr
        refine Or.inr ⟨a', a :: pre', post', by rw [hsplit]; rfl, ?_, h.trans hlt, ?_, hpost⟩
        · simp only [mm_search_loop, if_pos h]
          exact hres
        · intro b hb
          rcases List.mem_cons.mp hb with rfl | hb
          · exact hlt
          · exact hpre b hb
    · rcases ih v0 m0 with ⟨heq, hall⟩ | hr
      · refine Or.inl ⟨?_, ?_⟩
        · simp only [mm_search_loop, if_neg h]
          exact heq
        · intro b hb
          rcases List.mem_cons.mp hb with rfl | hb
          · exact not_lt.mp h
          · exact hall b hb
      · obtain ⟨a', pre', post', hsplit, hres, hlt, hpre, hpost⟩ := hr
        refine Or.inr ⟨a', a :: pre', post', by rw [hsplit]; rfl, ?_, hlt, ?_, hpost⟩
        · simp only [mm_search_loop, if_neg h]
          exact hres
        · intro b hb
          rcases List.mem_cons.mp hb with rfl | hb
          · exact lt_of_le_of_lt (not_lt.mp h) hlt
          · exact hpre b hb

/-!
Termination (fueled variants): `max_value`/`min_value` and
`NegamaxAlphaBeta` with an explicit call-stack budget; any fuel exceeding
the requested depth reproduces the total functions, showing the recursion
bottoms out at depth zero or a terminal state. -/

/-- Fueled variant of `max_loop`: each child evaluation may run out of fuel. -/
def max_loop_fuel (G : Game σ m) (ev : σ → EV → EV → Option EV) (s : σ) :
    List m → EV → EV → EV → Option EV
  | [], _A, _B, best => some best
  | a :: rest, A, B, best =>
    match ev (G.result s a) A B with
    | none => none
    | some v =>
      let best' := max best v
      if B ≤ best' then some best'
      else max_loop_fuel G ev s rest (max A best') B best'

/-- Fueled variant of `min_loop`. -/
def min_loop_fuel (G : Game σ m) (ev : σ → EV → EV → Option EV) (s : σ) :
    List m → EV → EV → EV → Option EV
  | [], _A, _B, best => some best
  | a :: rest, A, B, best =>
    match ev (G.result s a) A B with
    | none => none
    | some v =>
      let best' := min best v
      if best' ≤ A then some best'
      else min_loop_fuel G ev s rest A (min B best') best'

mutual

/-- `max_value` with an explicit fuel bound on the recursion depth. -/
def max_value_fuel (G : Game σ m) (hf : Nat → σ → ℤ) (p : Nat) :
    Nat → σ → EV → EV → Nat → Option EV
  | 0, _, _, _, _ => none
  | f + 1, s, A, B, d =>
    if G.terminal_test s then some (iv (G.utility s p))
    else
      match d with
      | 0 => some (iv (hf p s))
      | d' + 1 =>
        max_loop_fuel G (fun c A' B' => min_value_fuel G hf p f c A' B' d') s
          (G.actions s) A B ⊥

/-- `min_value` with an explicit fuel bound on the recursion depth. -/
def min_value_fuel (G : Game σ m) (hf : Nat → σ → ℤ) (p : Nat) :
    Nat → σ → EV → EV → Nat → Option EV
  | 0, _, _, _, _ => none
  | f + 1, s, A, B, d =>
    if G.terminal_test s then some (iv (G.utility s p))
    else
      match d with
      | 0 => some (iv (hf p s))
      | d' + 1 =>
        min_loop_fuel G (fun c A' B' => max_value_fuel G hf p f c A' B' d') s
          (G.actions s) A B ⊤

end

/-- Fueled variant of `nega_loop`. -/
def nega_loop_fuel (G : Game σ m) (ev : σ → EV → EV → Option EV) (s : σ) :
    List m → EV → EV → EV → Option EV
  | [], _A, _B, best => some best
  | a :: rest, A, B, best =>
    match ev (G.result s a) (nega B) (nega A) with
    | none => none
    | some w =>
      let v := nega w
      let best' := max best v
      let A' := max A best'
      if B ≤ A' then some best'
      else nega_loop_fuel G ev s rest A' B best'

/-- `NegamaxAlphaBeta` with an explicit fuel bound on the recursion depth. -/
def NegamaxAlphaBeta_fuel (G : Game σ m) (hf : Nat → σ → ℤ) :
    Nat → σ → EV → EV → Nat → Option EV
  | 0, _, _, _, _ => none
  | f + 1, s, A, B, d =>
    if G.terminal_test s then some (iv (G.utility s (G.player_id s)))
    else
      match d with
      | 0 => some (iv (hf (G.player_id s) s))
      | d' + 1 =>
        nega_loop_fuel G (fun c A' B' => NegamaxAlphaBeta_fuel G hf f c A' B' d')
          s (G.actions s) A B ⊥

theorem max_loop_fuel_eq (G : Game σ m) (evf : σ → EV → EV → Option EV)
    (ev : σ → EV → EV → EV) (s : σ)
    (hev : ∀ c A B, evf c A B = some (ev c A B)) :
    ∀ (acts : List m) (A B best : EV),
      max_loop_fuel G evf s acts A B best = some (max_loop G ev s acts A B best) := by
  intro acts
  induction acts with
  | nil => intro A B best; simp [max_loop_fuel, max_loop]
  | cons a rest ih =>
    intro A B best
    simp only [max_loop_fuel, max_loop, hev]
    by_cases hcut : B ≤ max best (ev (G.result s a) A B)
    · rw [if_pos hcut, if_pos hcut]
    · rw [if_neg hcut, if_neg hcut]
      exact ih _ _ _

theorem min_loop_fuel_eq (G : Game σ m) (evf : σ → EV → EV → Option EV)
    (ev : σ → EV → EV → EV) (s : σ)
    (hev : ∀ c A B, evf c A B = some (ev c A B)) :
    ∀ (acts : List m) (A B best : EV),
      min_loop_fuel G evf s acts A B best = some (min_loop G ev s acts A B best) := by
  intro acts
  induction acts with
  | nil => intro A B best; simp [min_loop_fuel, min_loop]
  | cons a rest ih =>
    intro A B best
    simp only [min_loop_fuel, min_loop, hev]
    by_cases hcut : min best (ev (G.result s a) A B) ≤ A
    · rw [if_pos hcut, if_pos hcut]
    · rw [if_neg hcut, if_neg hcut]
      exact ih _ _ _

theorem nega_loop_fuel_eq (G : Game σ m) (evf : σ → EV → EV → Option EV)
    (ev : σ → EV → EV → EV) (s : σ)
    (hev : ∀ c A B, evf c A B = some (ev c A B)) :
    ∀ (acts : List m) (A B best : EV),
      nega_loop_fuel G evf s acts A B best = some (nega_loop G ev s acts A B best) := by
  intro acts
  induction acts with
  | nil => intro A B best; simp [nega_loop_fuel, nega_loop]
  | cons a rest ih =>
    intro A B best
    simp only [nega_loop_fuel, nega_loop, hev]
    by_cases hcut : B ≤ max A (max best (nega (ev (G.result s a) (nega B) (nega A))))
    · rw [if_pos hcut, if_pos hcut]
    · rw [if_neg hcut, if_neg hcut]
      exact ih _ _ _

/-- With any fuel exceeding the requested depth, the fueled alpha-beta
functions reproduce the total ones: the recursion needs at most `d + 1`
nested calls. -/
theorem minmax_value_fuel_eq (G : Game σ m) (hf : Nat → σ → ℤ) (p : Nat) :
    ∀ (f d : Nat), d < f → ∀ (s : σ) (A B : EV),
      max_value_fuel G hf p f s A B d = some (max_value G hf p s A B d) ∧
      min_value_fuel G hf p f s A B d = some (min_value G hf p s A B d) := by
  intro f
  induction f with
  | zero => intro d hd; omega
  | succ f' ih =>
    intro d hd s A B
    constructor
    · by_cases ht : G.terminal_test s
      · rw [max_value_fuel.eq_def, max_value.eq_def]
        simp [ht]
      · match d with
        | 0 => simp [max_value_fuel, max_value, ht]
        | d' + 1 =>
          simp only [max_value_fuel, max_value, ht, if_false]
          exact max_loop_fuel_eq G _ _ s
            (fun c A' B' => (ih d' (by omega) c A' B').2) (G.actions s) A B ⊥
    · by_cases ht : G.terminal_test s
      · rw [min_value_fuel.eq_def, min_value.eq_def]
        simp [ht]
      · match d with
        | 0 => simp [min_value_fuel, min_value, ht]
        | d' + 1 =>
          simp only [min_value_fuel, min_value, ht, if_false]
          exact min_loop_fuel_eq G _ _ s
            (fun c A' B' => (ih d' (by omega) c A' B').1) (G.actions s) A B ⊤

/-- With any fuel exceeding the requested depth, fueled negamax reproduces
the total function. -/
theorem NegamaxAlphaBeta_fuel_eq (G : Game σ m) (hf : Nat → σ → ℤ) :
    ∀ (f d : Nat), d < f → ∀ (s : σ) (A B : EV),
      NegamaxAlphaBeta_fuel G hf f s A B d =
        some (NegamaxAlphaBeta G hf s A B d) := by
  intro f
  induction f with
  | zero => intro d hd; omega
  | succ f' ih =>
    intro d hd s A B
    by_cases ht : G.terminal_test s
    · rw [NegamaxAlphaBeta_fuel.eq_def, NegamaxAlphaBeta.eq_def]
      simp [ht]
    · match d with
      | 0 => simp [NegamaxAlphaBeta_fuel, NegamaxAlphaBeta, ht]
      | d' + 1 =>
        simp only [NegamaxAlphaBeta_fuel, NegamaxAlphaBeta, ht, if_false]
        exact nega_loop_fuel_eq G _ _ s
          (fun c A' B' => ih d' (by omega) c A' B') (G.actions s) A B ⊥

/-!
Monte Carlo Tree Search (spec §4.4).  Modelled from the spec with the
arena-of-indices representation the spec's design notes (§9) prescribe:
the tree lives in a list of nodes, children are list indices appended after
their parent.  The `.pyc` symbol table confirms the routine names
(`MCTS_Node`, `tree_policy`, `default_policy`, `backup`, `best_child`,
`children_actions`).  The UCT child choice uses floating-point logarithms
in the original; here the choice among already-explored children is an
oracle parameter `pick` (spec §9 asks for injectable randomness), which no
proved property depends on.  `direct` is a ghost counter of the rollouts
attributed at the node itself during backpropagation. -/

/-- Modelled from the spec (§3, §4.4): one MCTS tree node: its state, its
children (arena indices plus the actions leading to them), a visit count
and an accumulated reward total.  `direct` is a ghost field counting the
rollouts whose backpropagation started at this node. -/
structure MCTS_Node (σ : Type) (m : Type) where
  st : σ
  child_idx : List Nat
  children_actions : List m
  visits : Nat
  reward : ℤ
  direct : Nat

/-- Replace the node at index `i` (no-op when out of range). -/
def upd (ar : List (MCTS_Node σ m)) (i : Nat) (g : MCTS_Node σ m → MCTS_Node σ m) :
    List (MCTS_Node σ m) :=
  match ar, i with
  | [], _ => []
  | x :: r, 0 => g x :: r
  | x :: r, i + 1 => x :: upd r i g

/-- Visit count of node `i` (0 when out of range). -/
def visits_at (ar : List (MCTS_Node σ m)) (i : Nat) : Nat :=
  ((ar[i]?).map MCTS_Node.visits).getD 0

/-- Ghost direct-rollout count of node `i` (0 when out of range). -/
def direct_at (ar : List (MCTS_Node σ m)) (i : Nat) : Nat :=
  ((ar[i]?).map MCTS_Node.direct).getD 0

/-- Accumulated reward of node `i` (0 when out of range). -/
def reward_at (ar : List (MCTS_Node σ m)) (i : Nat) : ℤ :=
  ((ar[i]?).map MCTS_Node.reward).getD 0

/-- Child indices of node `i` (empty when out of range). -/
def kids_at (ar : List (MCTS_Node σ m)) (i : Nat) : List Nat :=
  ((ar[i]?).map MCTS_Node.child_idx).getD []

/-- Modelled from the spec (§4.4 phase 1): selection/expansion.  Descend
from node `i`: stop at a terminal (or childless, action-less) node; expand
the first untried action into a fresh child, ending the descent; otherwise
descend into the child chosen by the `pick` oracle.  Returns the new arena
and the root-first path of visited indices. -/
def tree_policy (G : Game σ m) [DecidableEq m] (pick : Nat → Nat) :
    Nat → List (MCTS_Node σ m) → Nat → List (MCTS_Node σ m) × List Nat
  | 0, ar, i => (ar, [i])
  | f + 1, ar, i =>
    match ar[i]? with
    | none => (ar, [i])
    | some n =>
      if G.terminal_test n.st then (ar, [i])
      else
        match (G.actions n.st).filter (fun a => decide (a ∉ n.children_actions)) with
        | u :: _ =>
          (upd ar i (fun nn =>
            { nn with child_idx := nn.child_idx ++ [ar.length],
                      children_actions := nn.children_actions ++ [u] }) ++
            [⟨G.result n.st u, [], [], 0, 0, 0⟩], [i, ar.length])
        | [] =>
          match n.child_idx with
          | [] => (ar, [i])
          | c :: cs =>
            let j := (c :: cs).get
              ⟨pick f % (c :: cs).length, Nat.mod_lt _ (Nat.succ_pos _)⟩
            let res := tree_policy G pick f ar j
            (res.1, i :: res.2)

/-- Modelled from the spec (§4.4 phase 2): the random rollout: play
uniformly random legal actions (driven by the `rng` oracle) until a
terminal state, and return its utility for player `p`; `fuel` bounds the
playout length. -/
def default_policy (G : Game σ m) (rng : Nat → Nat) (p : Nat) :
    Nat → σ → ℤ
  | 0, s => G.utility s p
  | f + 1, s =>
    if G.terminal_test s then G.utility s p
    else
      match G.actions s with
      | [] => G.utility s p
      | a :: rest =>
        default_policy G rng p f
          (G.result s ((a :: rest).get
            ⟨rng f % (a :: rest).length, Nat.mod_lt _ (Nat.succ_pos _)⟩))

/-- Modelled from the spec (§4.4 phase 3): walk the (leaf-first) index list
back to the root, incrementing each node's visit count and adding the
rollout reward, sign-flipped at each level. -/
def backup (r : ℤ) : List Nat → List (MCTS_Node σ m) → List (MCTS_Node σ m)
  | [], ar => ar
  | i :: rest, ar =>
    backup (-r) rest
      (upd ar i (fun n => { n with visits := n.visits + 1, reward := n.reward + r }))

/-- Modelled from the spec (§4.4 phase 4): the robust-child rule: among the
child indices, the one with the highest visit count, first on ties. -/
def best_child (ar : List (MCTS_Node σ m)) : List Nat → Option Nat
  | [] => none
  | c :: cs =>
    match best_child ar cs with
    | none => some c
    | some c' => if visits_at ar c' ≤ visits_at ar c then some c else some c'

/-- Position of `j` in a list of indices (0 when absent). -/
def idx_in (j : Nat) : List Nat → Nat
  | [] => 0
  | c :: cs => if c = j then 0 else idx_in j cs + 1

/-- The rollout-attribution and backpropagation phase of one MCTS
iteration: bump the reached leaf's ghost direct counter and backpropagate
the reward `r` along the reversed path. -/
def mcts_backup_phase (r : ℤ) (sel : List (MCTS_Node σ m) × List Nat) :
    List (MCTS_Node σ m) :=
  backup r sel.2.reverse
    (upd sel.1 (sel.2.getLast?.getD 0) (fun n => { n with direct := n.direct + 1 }))

/-- One MCTS iteration: select/expand, roll out from the reached leaf for
the leaf's acting player, bump the leaf's ghost direct counter, and
backpropagate the reward along the reversed path. -/
def mcts_iter (G : Game σ m) [DecidableEq m] (pick rng : Nat → Nat)
    (roll_fuel : Nat) (ar : List (MCTS_Node σ m)) : List (MCTS_Node σ m) :=
  let sel := tree_policy G pick (ar.length + 1) ar 0
  mcts_backup_phase
    (match sel.1[sel.2.getLast?.getD 0]? with
     | some n => default_policy G rng (G.player_id n.st) roll_fuel n.st
     | none => 0)
    sel

/-- The fixed-budget iteration loop of `mcts`. -/
def mcts_loop (G : Game σ m) [DecidableEq m] (pick rng : Nat → Nat)
    (roll_fuel : Nat) : Nat → List (MCTS_Node σ m) → List (MCTS_Node σ m)
  | 0, ar => ar
  | t + 1, ar => mcts_loop G pick rng roll_fuel t (mcts_iter G pick rng roll_fuel ar)

/-- Modelled from the spec (§4.4, §7): `CustomPlayer.mcts`.  A root state
with no legal actions signals "no move available" (`none`) instead of
indexing into an empty child list; otherwise the iteration budget is spent
and the robust child's action is returned. -/
def mcts (G : Game σ m) [DecidableEq m] (pick rng : Nat → Nat)
    (iter_limit roll_fuel : Nat) (s : σ) : Option m :=
  if (G.actions s).isEmpty then none
  else
    let ar := mcts_loop G pick rng roll_fuel iter_limit [⟨s, [], [], 0, 0, 0⟩]
    match ar[0]? with
    | none => none
    | some n =>
      match best_child ar n.child_idx with
      | none => none
      | some j => n.children_actions[idx_in j n.child_idx]?

/-- Modelled from the spec (§4.5): `CustomPlayer.get_action`.  The returned
list is the sequence of actions submitted to the action channel.  On the
first plies of the game (`ply_count < 2`) a uniformly random legal action
(index `rand` modulo the number of legal actions) is submitted before any
search; otherwise the search strategy's best move is submitted. -/
def get_action (G : Game σ m) [DecidableEq m] (rand : Nat)
    (pick rng : Nat → Nat) (iter_limit roll_fuel : Nat) (s : σ) : List m :=
  if G.ply_count s < 2 then
    match G.actions s with
    | [] => []
    | a :: rest =>
      [(a :: rest).get ⟨rand % (a :: rest).length, Nat.mod_lt _ (Nat.succ_pos _)⟩]
  else
    match mcts G pick rng iter_limit roll_fuel s with
    | none => []
    | some a => [a]

/-!
MCTS tree invariants (spec §3): the arena is well-formed (children come
after their parent, have a unique parent, and child lists are duplicate
free), and every node's visit count equals its ghost direct-rollout count
plus the sum of its children's visit counts — the provable form of the
spec's visit-count/backpropagation invariant. -/

theorem upd_length (ar : List (MCTS_Node σ m)) (i : Nat)
    (g : MCTS_Node σ m → MCTS_Node σ m) : (upd ar i g).length = ar.length := by
  induction ar generalizing i with
  | nil => simp [upd]
  | cons x r ih =>
    cases i with
    | zero => simp [upd]
    | succ i => simp [upd, ih]

theorem upd_getElem (ar : List (MCTS_Node σ m)) (i j : Nat)
    (g : MCTS_Node σ m → MCTS_Node σ m) :
    (upd ar i g)[j]? = if j = i then (ar[j]?).map g else ar[j]? := by
  induction ar generalizing i j with
  | nil => simp [upd]
  | cons x r ih =>
    cases i with
    | zero =>
      cases j with
      | zero => simp [upd]
      | succ j => simp [upd]
    | succ i =>
      cases j with
      | zero => simp [upd]
      | succ j => simpa [upd] using ih i j

theorem snoc_getElem (ar : List (MCTS_Node σ m)) (c : MCTS_Node σ m) (k : Nat) :
    (ar ++ [c])[k]? = if k = ar.length then some c else ar[k]? := by
  rw [List.getElem?_append]
  rcases lt_trichotomy k ar.length with h | h | h
  · rw [if_pos h, if_neg h.ne]
  · subst h
    rw [if_neg (lt_irrefl _), if_pos rfl, Nat.sub_self]
    rfl
  · rw [if_neg (not_lt.mpr h.le), if_neg h.ne',
      List.getElem?_eq_none (show ([c] : List (MCTS_Node σ m)).length ≤ k - ar.length by
        simp
        omega),
      List.getElem?_eq_none h.le]

theorem visits_at_out (ar : List (MCTS_Node σ m)) (k : Nat)
    (h : ar.length ≤ k) : visits_at ar k = 0 := by
  simp [visits_at, List.getElem?_eq_none h]

theorem kids_at_out (ar : List (MCTS_Node σ m)) (k : Nat)
    (h : ar.length ≤ k) : kids_at ar k = [] := by
  simp [kids_at, List.getElem?_eq_none h]

/-- Structural well-formedness of the arena: every child index is greater
than its parent's and in range, has a unique parent, and no duplicates. -/
def wf_arena (ar : List (MCTS_Node σ m)) : Prop :=
  (∀ i j, j ∈ kids_at ar i → i < j ∧ j < ar.length) ∧
  (∀ i i' j, j ∈ kids_at ar i → j ∈ kids_at ar i' → i = i') ∧
  (∀ i, (kids_at ar i).Nodup)

/-- The visit-count invariant: each node's visit count equals its direct
rollouts plus the sum of its children's visit counts. -/
def count_ok (ar : List (MCTS_Node σ m)) : Prop :=
  ∀ i, visits_at ar i = direct_at ar i + ((kids_at ar i).map (visits_at ar)).sum

theorem wf_transfer {ar ar' : List (MCTS_Node σ m)}
    (h1 : kids_at ar' = kids_at ar) (h2 : ar'.length = ar.length) :
    wf_arena ar → wf_arena ar' := by
  unfold wf_arena
  rw [h1, h2]
  exact id

/-- A root-first descent path in the arena: consecutive elements are
parent and child. -/
inductive IsPath (ar : List (MCTS_Node σ m)) : List Nat → Prop
  | single (i : Nat) (h : i < ar.length) : IsPath ar [i]
  | cons (i j : Nat) (rest : List Nat) (hl : j ∈ kids_at ar i)
      (hi : i < ar.length) (hp : IsPath ar (j :: rest)) : IsPath ar (i :: j :: rest)

theorem IsPath.ne_nil {ar : List (MCTS_Node σ m)} {p : List Nat}
    (hp : IsPath ar p) : p ≠ [] := by
  cases hp <;> simp

theorem IsPath.mem_lt {ar : List (MCTS_Node σ m)} {p : List Nat}
    (hp : IsPath ar p) : ∀ x ∈ p, x < ar.length := by
  induction hp with
  | single i h =>
    intro x hx
    rw [List.mem_singleton.mp hx]
    exact h
  | cons i j rest hl hi hsub ih =>
    intro x hx
    rcases List.mem_cons.mp hx with rfl | hx
    · exact hi
    · exact ih x hx

theorem isPath_chain {ar : List (MCTS_Node σ m)} (hwf : wf_arena ar)
    {p : List Nat} (hp : IsPath ar p) : p.Chain' (· < ·) := by
  induction hp with
  | single i h => simp
  | cons i j rest hl hi hsub ih =>
    exact List.Chain'.cons ((hwf.1 i j hl).1) ih

theorem isPath_pairwise {ar : List (MCTS_Node σ m)} (hwf : wf_arena ar)
    {p : List Nat} (hp : IsPath ar p) : p.Pairwise (· < ·) :=
  List.chain'_iff_pairwise.mp (isPath_chain hwf hp)

theorem isPath_nodup {ar : List (MCTS_Node σ m)} (hwf : wf_arena ar)
    {p : List Nat} (hp : IsPath ar p) : p.Nodup :=
  (isPath_pairwise hwf hp).imp ne_of_lt

/-- In a duplicate-free index list, the number of occurrences of `i` is one
or zero according to membership. -/
theorem nodup_filter_eq (i : Nat) :
    ∀ K : List Nat, K.Nodup →
      (K.filter (fun j => decide (j = i))).length = if i ∈ K then 1 else 0 := by
  intro K
  induction K with
  | nil => simp
  | cons x rest ih =>
    intro hnd
    obtain ⟨hx, hrest⟩ := List.nodup_cons.mp hnd
    rw [List.filter_cons]
    by_cases hxi : x = i
    · have hnotin : i ∉ rest := hxi ▸ hx
      rw [if_pos (decide_eq_true hxi), List.length_cons, ih hrest,
        if_neg hnotin, if_pos (by simp [hxi])]
    · rw [if_neg (by simpa using hxi), ih hrest]
      have hiff : (i ∈ x :: rest) ↔ (i ∈ rest) := by
        simp [List.mem_cons, Ne.symm hxi]
      by_cases hi : i ∈ rest
      · rw [if_pos hi, if_pos (hiff.mpr hi)]
      · rw [if_neg hi, if_neg (fun hc => hi (hiff.mp hc))]

/-- Splitting a membership filter over `i :: q` when `i ∉ q`. -/
theorem filter_cons_split (i : Nat) (q : List Nat) (hiq : i ∉ q) :
    ∀ K : List Nat,
      (K.filter (fun j => decide (j ∈ i :: q))).length =
        (K.filter (fun j => decide (j ∈ q))).length +
          (K.filter (fun j => decide (j = i))).length := by
  intro K
  induction K with
  | nil => simp
  | cons x rest ih =>
    rw [List.filter_cons, List.filter_cons, List.filter_cons]
    by_cases hx : x = i
    · have hx1 : x ∈ i :: q := by simp [hx]
      have hx2 : x ∉ q := fun hc => hiq (hx ▸ hc)
      rw [if_pos (decide_eq_true hx1), if_neg (by simpa using hx2),
        if_pos (decide_eq_true hx), List.length_cons, List.length_cons, ih]
      omega
    · by_cases hq : x ∈ q
      · have hx1 : x ∈ i :: q := List.mem_cons_of_mem i hq
        rw [if_pos (decide_eq_true hx1), if_pos (decide_eq_true hq),
          if_neg (by simpa using hx), List.length_cons, List.length_cons, ih]
        omega
      · have hx1 : x ∉ i :: q := by simp [hx, hq]
        rw [if_neg (by simpa using hx1), if_neg (by simpa using hq),
          if_neg (by simpa using hx), ih]

theorem sum_map_add (f g : Nat → Nat) :
    ∀ K : List Nat, (K.map (fun j => f j + g j)).sum =
      (K.map f).sum + (K.map g).sum := by
  intro K
  induction K with
  | nil => simp
  | cons x rest ih =>
    simp only [List.map_cons, List.sum_cons, ih]
    omega

theorem sum_map_ite (p : List Nat) :
    ∀ K : List Nat, (K.map (fun j => if j ∈ p then 1 else 0)).sum =
      (K.filter (fun j => decide (j ∈ p))).length := by
  intro K
  induction K with
  | nil => simp
  | cons x rest ih =>
    rw [List.map_cons, List.sum_cons, List.filter_cons]
    by_cases hx : x ∈ p
    · rw [if_pos hx, if_pos (decide_eq_true hx), List.length_cons, ih]
      omega
    · rw [if_neg hx, if_neg (by simpa using hx), ih]
      omega

/-- How often a path crosses the children of a node `k`: exactly once when
`k` is a non-final element of the path, plus a correction when the path's
head is itself a child of `k` (impossible for the root-headed paths used by
`mcts`). -/
theorem path_filter_count {ar : List (MCTS_Node σ m)} (hwf : wf_arena ar)
    {p : List Nat} (hp : IsPath ar p) :
    ∀ k h, p.head? = some h →
      ((kids_at ar k).filter (fun j => decide (j ∈ p))).length =
        (if k ∈ p ∧ p.getLast? ≠ some k then 1 else 0) +
          (if h ∈ kids_at ar k then 1 else 0) := by
  induction hp with
  | single i hi =>
    intro k h hh
    have hh' : h = i := by
      simpa using hh.symm
    subst hh'
    have hcongr : (kids_at ar k).filter (fun j => decide (j ∈ [h])) =
        (kids_at ar k).filter (fun j => decide (j = h)) := by
      apply List.filter_congr
      intro j _
      simp
    rw [hcongr, nodup_filter_eq h (kids_at ar k) (hwf.2.2 k)]
    by_cases hk : k = h
    · subst hk
      have hcond : ¬ (k ∈ [k] ∧ ([k] : List Nat).getLast? ≠ some k) := by
        intro hc
        exact hc.2 rfl
      rw [if_neg hcond, Nat.zero_add]
    · have hcond : ¬ (k ∈ [h] ∧ ([h] : List Nat).getLast? ≠ some k) := by
        intro hc
        exact hk (List.mem_singleton.mp hc.1)
      rw [if_neg hcond, Nat.zero_add]
  | cons i j rest hl hi hsub ih =>
    intro k h hh
    have hh' : h = i := by
      simpa using hh.symm
    subst hh'
    have hinc : (h :: j :: rest).Pairwise (· < ·) :=
      isPath_pairwise hwf (IsPath.cons h j rest hl hi hsub)
    have hnotin : h ∉ j :: rest := by
      intro hmem
      exact absurd ((List.pairwise_cons.mp hinc).1 h hmem) (lt_irrefl h)
    rw [filter_cons_split h (j :: rest) hnotin (kids_at ar k),
      nodup_filter_eq h (kids_at ar k) (hwf.2.2 k),
      ih k j rfl]
    have hlast : (h :: j :: rest).getLast? = (j :: rest).getLast? :=
      List.getLast?_cons_cons
    rw [hlast]
    obtain ⟨x, hx⟩ : ∃ x, (j :: rest).getLast? = some x :=
      ⟨(j :: rest).getLast (List.cons_ne_nil j rest),
        List.getLast?_eq_getLast _ (List.cons_ne_nil j rest)⟩
    have hxmem : x ∈ j :: rest := by
      have h2 := List.getLast?_eq_getLast (j :: rest) (List.cons_ne_nil j rest)
      rw [hx] at h2
      rw [Option.some_inj.mp h2]
      exact List.getLast_mem _
    by_cases hk : k = h
    · subst hk
      have hxk : x ≠ k := fun hxx => hnotin (hxx ▸ hxmem)
      have hcondp : k ∈ k :: j :: rest ∧ (j :: rest).getLast? ≠ some k :=
        ⟨List.mem_cons_self k (j :: rest), by
          rw [hx]
          simp [hxk]⟩
      rw [if_neg (fun hc => hnotin hc.1), if_pos hl, if_pos hcondp]
    · have hjnk : j ∉ kids_at ar k := fun hjmem => hk (hwf.2.1 k h j hjmem hl)
      rw [if_neg hjnk, Nat.add_zero]
      have hiff : (k ∈ h :: j :: rest ∧ (j :: rest).getLast? ≠ some k) ↔
          (k ∈ j :: rest ∧ (j :: rest).getLast? ≠ some k) := by
        constructor
        · rintro ⟨hm, hl2⟩
          rcases List.mem_cons.mp hm with rfl | hm
          · exact absurd rfl hk
          · exact ⟨hm, hl2⟩
        · rintro ⟨hm, hl2⟩
          exact ⟨List.mem_cons_of_mem h hm, hl2⟩
      rw [if_congr hiff rfl rfl]

/-- Effects of selection/expansion on the arena: the length grows, the
visit/direct/reward fields of every node are untouched, each node's
children visit-sum is untouched (a freshly expanded child starts at zero
visits), and on a well-formed arena the result is well-formed, the
returned index list is a descent path headed at the start node, and nodes
strictly before the start node are untouched. -/
theorem tree_policy_spec (G : Game σ m) [DecidableEq m] (pick : Nat → Nat) :
    ∀ (f : Nat) (ar : List (MCTS_Node σ m)) (i : Nat),
      ar.length ≤ (tree_policy G pick f ar i).1.length ∧
      visits_at (tree_policy G pick f ar i).1 = visits_at ar ∧
      direct_at (tree_policy G pick f ar i).1 = direct_at ar ∧
      reward_at (tree_policy G pick f ar i).1 = reward_at ar ∧
      (∀ k, ((kids_at (tree_policy G pick f ar i).1 k).map
          (visits_at (tree_policy G pick f ar i).1)).sum =
        ((kids_at ar k).map (visits_at ar)).sum) ∧
      (tree_policy G pick f ar i).2.head? = some i ∧
      (wf_arena ar → i < ar.length →
        wf_arena (tree_policy G pick f ar i).1 ∧
        IsPath (tree_policy G pick f ar i).1 (tree_policy G pick f ar i).2 ∧
        (∀ k, k < i → (tree_policy G pick f ar i).1[k]? = ar[k]?)) := by
  intro f
  induction f with
  | zero =>
    intro ar i
    exact ⟨le_rfl, rfl, rfl, rfl, fun k => rfl, rfl,
      fun hwf hi => ⟨hwf, IsPath.single i hi, fun k _ => rfl⟩⟩
  | succ f ih =>
    intro ar i
    cases hn : ar[i]? with
    | none =>
      have hres : tree_policy G pick (f + 1) ar i = (ar, [i]) := by
        rw [tree_policy, hn]
      rw [hres]
      exact ⟨le_rfl, rfl, rfl, rfl, fun k => rfl, rfl,
        fun hwf hi => ⟨hwf, IsPath.single i hi, fun k _ => rfl⟩⟩
    | some n =>
      have hiL : i < ar.length := by
        by_contra hc
        rw [List.getElem?_eq_none (not_lt.mp hc)] at hn
        exact absurd hn (by simp)
      by_cases ht : G.terminal_test n.st
      · have hres : tree_policy G pick (f + 1) ar i = (ar, [i]) := by
          simp [tree_policy, hn, ht]
        rw [hres]
        exact ⟨le_rfl, rfl, rfl, rfl, fun k => rfl, rfl,
          fun hwf hi => ⟨hwf, IsPath.single i hi, fun k _ => rfl⟩⟩
      · cases hfil : (G.actions n.st).filter (fun a => decide (a ∉ n.children_actions)) with
        | cons u us =>
          have hres : tree_policy G pick (f + 1) ar i =
              (upd ar i (fun nn =>
                { nn with child_idx := nn.child_idx ++ [ar.length],
                          children_actions := nn.children_actions ++ [u] }) ++
                [⟨G.result n.st u, [], [], 0, 0, 0⟩], [i, ar.length]) := by
            rw [tree_policy, hn]
            dsimp only
            rw [if_neg ht, hfil]
          rw [hres]
          set g : MCTS_Node σ m → MCTS_Node σ m := fun nn =>
            { nn with child_idx := nn.child_idx ++ [ar.length],
                      children_actions := nn.children_actions ++ [u] } with hg
          set c0 : MCTS_Node σ m := ⟨G.result n.st u, [], [], 0, 0, 0⟩ with hc0
          have hlen : (upd ar i g ++ [c0]).length = ar.length + 1 := by
            simp [upd_length]
          have hget : ∀ k, (upd ar i g ++ [c0])[k]? =
              if k = ar.length then some c0
              else if k = i then (ar[k]?).map g else ar[k]? := by
            intro k
            rw [snoc_getElem, upd_length, upd_getElem]
          have hvis : visits_at (upd ar i g ++ [c0]) = visits_at ar := by
            funext k
            unfold visits_at
            rw [hget k]
            by_cases hkL : k = ar.length
            · subst hkL
              rw [if_pos rfl, List.getElem?_eq_none le_rfl]
              rfl
            · rw [if_neg hkL]
              by_cases hki : k = i
              · subst hki
                rw [if_pos rfl, hn]
                rfl
              · rw [if_neg hki]
          have hdir : direct_at (upd ar i g ++ [c0]) = direct_at ar := by
            funext k
            unfold direct_at
            rw [hget k]
            by_cases hkL : k = ar.length
            · subst hkL
              rw [if_pos rfl, List.getElem?_eq_none le_rfl]
              rfl
            · rw [if_neg hkL]
              by_cases hki : k = i
              · subst hki
                rw [if_pos rfl, hn]
                rfl
              · rw [if_neg hki]
          have hrew : reward_at (upd ar i g ++ [c0]) = reward_at ar := by
            funext k
            unfold reward_at
            rw [hget k]
            by_cases hkL : k = ar.length
            · subst hkL
              rw [if_pos rfl, List.getElem?_eq_none le_rfl]
              rfl
            · rw [if_neg hkL]
              by_cases hki : k = i
              · subst hki
                rw [if_pos rfl, hn]
                rfl
              · rw [if_neg hki]
          have hkidar : kids_at ar i = n.child_idx := by
            simp [kids_at, hn]
          have hkids : ∀ k, kids_at (upd ar i g ++ [c0]) k =
              if k = i then kids_at ar i ++ [ar.length] else kids_at ar k := by
            intro k
            unfold kids_at
            rw [hget k]
            by_cases hkL : k = ar.length
            · subst hkL
              rw [if_pos rfl, if_neg (ne_of_gt hiL), List.getElem?_eq_none le_rfl]
              rfl
            · rw [if_neg hkL]
              by_cases hki : k = i
              · subst hki
                rw [if_pos rfl, if_pos rfl, hn]
                simp [hg]
              · rw [if_neg hki, if_neg hki]
          refine ⟨by rw [hlen]; omega, hvis, hdir, hrew, ?_, rfl, ?_⟩
          · intro k
            rw [hvis, hkids k]
            by_cases hki : k = i
            · subst hki
              rw [if_pos rfl, List.map_append, List.sum_append]
              simp [visits_at_out ar ar.length le_rfl]
            · rw [if_neg hki]
          · intro hwf _
            have hbound : ∀ j', j' ∈ kids_at ar i → j' < ar.length :=
              fun j' hj' => (hwf.1 i j' hj').2
            refine ⟨⟨?_, ?_, ?_⟩, ?_, ?_⟩
            · intro k j' hj'
              rw [hkids k] at hj'
              rw [hlen]
              by_cases hki : k = i
              · subst hki
                rw [if_pos rfl] at hj'
                rcases List.mem_append.mp hj' with h | h
                · have := hwf.1 k j' h
                  omega
                · have := List.mem_singleton.mp h
                  omega
              · rw [if_neg hki] at hj'
                have := hwf.1 k j' hj'
                omega
            · intro k k' j' hj hj'
              rw [hkids k] at hj
              rw [hkids k'] at hj'
              by_cases hL : j' = ar.length
              · have hk1 : k = i := by
                  by_contra hc
                  rw [if_neg hc] at hj
                  have := (hwf.1 k j' hj).2
                  omega
                have hk2 : k' = i := by
                  by_contra hc
                  rw [if_neg hc] at hj'
                  have := (hwf.1 k' j' hj').2
                  omega
                rw [hk1, hk2]
              · have hj2 : j' ∈ kids_at ar k := by
                  by_cases hc : k = i
                  · rw [if_pos hc] at hj
                    rcases List.mem_append.mp hj with h | h
                    · rw [hc]
                      exact h
                    · exact absurd (List.mem_singleton.mp h) hL
                  · rw [if_neg hc] at hj
                    exact hj
                have hj2' : j' ∈ kids_at ar k' := by
                  by_cases hc : k' = i
                  · rw [if_pos hc] at hj'
                    rcases List.mem_append.mp hj' with h | h
                    · rw [hc]
                      exact h
                    · exact absurd (List.mem_singleton.mp h) hL
                  · rw [if_neg hc] at hj'
                    exact hj'
                exact hwf.2.1 k k' j' hj2 hj2'
            · intro k
              rw [hkids k]
              by_cases hc : k = i
              · rw [if_pos hc]
                refine List.Nodup.append ?_ (List.nodup_singleton _) ?_
                · rw [hc] at *
                  exact hwf.2.2 i
                · intro a ha hb
                  have h1 := hbound a ha
                  rw [List.mem_singleton.mp hb] at h1
                  omega
              · rw [if_neg hc]
                exact hwf.2.2 k
            · refine IsPath.cons i ar.length [] ?_ (by rw [hlen]; omega)
                (IsPath.single ar.length (by rw [hlen]; omega))
              rw [hkids i, if_pos rfl]
              exact List.mem_append.mpr (Or.inr (by simp))
            · intro k hk
              rw [hget k, if_neg (by omega), if_neg (by omega)]
        | nil =>
          cases hkid : n.child_idx with
          | nil =>
            have hres : tree_policy G pick (f + 1) ar i = (ar, [i]) := by
              rw [tree_policy, hn]
              dsimp only
              rw [if_neg ht, hfil]
              dsimp only
              rw [hkid]
            rw [hres]
            exact ⟨le_rfl, rfl, rfl, rfl, fun k => rfl, rfl,
              fun hwf hi => ⟨hwf, IsPath.single i hi, fun k _ => rfl⟩⟩
          | cons c cs =>
            have hres : tree_policy G pick (f + 1) ar i =
                ((tree_policy G pick f ar ((c :: cs).get
                    ⟨pick f % (c :: cs).length, Nat.mod_lt _ (Nat.succ_pos _)⟩)).1,
                 i :: (tree_policy G pick f ar ((c :: cs).get
                    ⟨pick f % (c :: cs).length, Nat.mod_lt _ (Nat.succ_pos _)⟩)).2) := by
              rw [tree_policy, hn]
              dsimp only
              rw [if_neg ht, hfil]
              dsimp only
              rw [hkid]
            rw [hres]
            set j := (c :: cs).get
              ⟨pick f % (c :: cs).length, Nat.mod_lt _ (Nat.succ_pos _)⟩ with hj
            obtain ⟨ile, ivis, idir, irew, isum, ihead, iwf⟩ := ih ar j
            have hjkids : j ∈ kids_at ar i := by
              have hk2 : kids_at ar i = n.child_idx := by
                simp [kids_at, hn]
              rw [hk2, hkid, hj]
              exact List.get_mem _ _ _
            refine ⟨ile, ivis, idir, irew, isum, rfl, ?_⟩
            intro hwf _
            have hjlt : j < ar.length := (hwf.1 i j hjkids).2
            have hij : i < j := (hwf.1 i j hjkids).1
            obtain ⟨wf', hpath', hpre'⟩ := iwf hwf hjlt
            refine ⟨wf', ?_, ?_⟩
            · cases hp2 : (tree_policy G pick f ar j).2 with
              | nil =>
                rw [hp2] at ihead
                exact absurd ihead (by simp)
              | cons y t =>
                have hy : y = j := by
                  rw [hp2] at ihead
                  simpa using ihead
                subst hy
                rw [hp2] at hpath'
                refine IsPath.cons i j t ?_ (lt_of_lt_of_le hiL ile) hpath'
                have hk3 : kids_at (tree_policy G pick f ar j).1 i = kids_at ar i := by
                  unfold kids_at
                  rw [hpre' i hij]
                rw [hk3]
                exact hjkids
            · intro k hk
              exact hpre' k (by omega)

theorem backup_length : ∀ (q : List Nat) (r : ℤ) (ar : List (MCTS_Node σ m)),
    (backup r q ar).length = ar.length := by
  intro q
  induction q with
  | nil => intro r ar; rfl
  | cons x rest ih =>
    intro r ar
    show (backup (-r) rest _).length = _
    rw [ih, upd_length]

theorem backup_kids : ∀ (q : List Nat) (r : ℤ) (ar : List (MCTS_Node σ m)),
    kids_at (backup r q ar) = kids_at ar := by
  intro q
  induction q with
  | nil => intro r ar; rfl
  | cons x rest ih =>
    intro r ar
    show kids_at (backup (-r) rest _) = _
    rw [ih]
    funext k
    unfold kids_at
    rw [upd_getElem]
    by_cases hk : k = x
    · subst hk
      rw [if_pos rfl]
      cases har : ar[k]? <;> simp [har]
    · rw [if_neg hk]

theorem backup_direct : ∀ (q : List Nat) (r : ℤ) (ar : List (MCTS_Node σ m)),
    direct_at (backup r q ar) = direct_at ar := by
  intro q
  induction q with
  | nil => intro r ar; rfl
  | cons x rest ih =>
    intro r ar
    show direct_at (backup (-r) rest _) = _
    rw [ih]
    funext k
    unfold direct_at
    rw [upd_getElem]
    by_cases hk : k = x
    · subst hk
      rw [if_pos rfl]
      cases har : ar[k]? <;> simp [har]
    · rw [if_neg hk]

theorem backup_visits : ∀ (q : List Nat), q.Nodup →
    ∀ (ar : List (MCTS_Node σ m)), (∀ x ∈ q, x < ar.length) → ∀ (r : ℤ) (k : Nat),
      visits_at (backup r q ar) k = visits_at ar k + (if k ∈ q then 1 else 0) := by
  intro q
  induction q with
  | nil =>
    intro _ ar _ r k
    simp [backup]
  | cons x rest ih =>
    intro hnd ar hbound r k
    obtain ⟨hx, hrest⟩ := List.nodup_cons.mp hnd
    show visits_at (backup (-r) rest _) k = _
    have hlen2 : (upd ar x (fun n =>
        { n with visits := n.visits + 1, reward := n.reward + r })).length = ar.length :=
      upd_length ar x _
    rw [ih hrest _ (fun y hy => hlen2 ▸ hbound y (List.mem_cons_of_mem x hy)) (-r) k]
    have hupd : visits_at (upd ar x (fun n =>
        { n with visits := n.visits + 1, reward := n.reward + r })) k =
        visits_at ar k + (if k = x then 1 else 0) := by
      unfold visits_at
      rw [upd_getElem]
      by_cases hk : k = x
      · subst hk
        rw [if_pos rfl, if_pos rfl,
          List.getElem?_eq_getElem (hbound k (List.mem_cons_self k rest))]
        rfl
      · rw [if_neg hk, if_neg hk, Nat.add_zero]
    rw [hupd]
    by_cases hk : k = x
    · subst hk
      rw [if_pos rfl, if_neg hx, if_pos (List.mem_cons_self k rest)]
    · rw [if_neg hk, Nat.add_zero]
      have hiff : (k ∈ x :: rest) ↔ (k ∈ rest) := by
        simp [List.mem_cons, hk]
      by_cases hm : k ∈ rest
      · rw [if_pos hm, if_pos (hiff.mpr hm)]
      · rw [if_neg hm, if_neg (fun hc => hm (hiff.mp hc))]

/-- The backpropagation phase preserves well-formedness and the
visit-count invariant: the leaf gains one direct rollout, every path node
gains one visit, and exactly the non-final path nodes gain one visit in
their parent's children sum. -/
theorem mcts_backup_phase_inv (r : ℤ) (sel : List (MCTS_Node σ m) × List Nat)
    (hwf1 : wf_arena sel.1) (hpath : IsPath sel.1 sel.2)
    (hhead : sel.2.head? = some 0) (hcnt1 : count_ok sel.1)
    (hlen1 : 0 < sel.1.length) :
    wf_arena (mcts_backup_phase r sel) ∧
      0 < (mcts_backup_phase r sel).length ∧
      count_ok (mcts_backup_phase r sel) := by
  unfold mcts_backup_phase
  have hpne : sel.2 ≠ [] := hpath.ne_nil
  have hlast : sel.2.getLast? = some (sel.2.getLast hpne) :=
    List.getLast?_eq_getLast _ _
  have hleaf : sel.2.getLast?.getD 0 = sel.2.getLast hpne := by
    rw [hlast]
    rfl
  have hleafmem : sel.2.getLast?.getD 0 ∈ sel.2 := by
    rw [hleaf]
    exact List.getLast_mem _
  have hleaflt : sel.2.getLast?.getD 0 < sel.1.length :=
    hpath.mem_lt _ hleafmem
  set leaf := sel.2.getLast?.getD 0 with hldef
  set gd : MCTS_Node σ m → MCTS_Node σ m :=
    fun n => { n with direct := n.direct + 1 } with hgd
  have h2len : (upd sel.1 leaf gd).length = sel.1.length := upd_length _ _ _
  have h2vis : visits_at (upd sel.1 leaf gd) = visits_at sel.1 := by
    funext k
    unfold visits_at
    rw [upd_getElem]
    by_cases hk : k = leaf
    · rw [if_pos hk, hk]
      cases har : sel.1[leaf]? <;> simp [har, hgd]
    · rw [if_neg hk]
  have h2kids : kids_at (upd sel.1 leaf gd) = kids_at sel.1 := by
    funext k
    unfold kids_at
    rw [upd_getElem]
    by_cases hk : k = leaf
    · rw [if_pos hk, hk]
      cases har : sel.1[leaf]? <;> simp [har, hgd]
    · rw [if_neg hk]
  have h2dir : ∀ k, direct_at (upd sel.1 leaf gd) k =
      direct_at sel.1 k + (if k = leaf then 1 else 0) := by
    intro k
    unfold direct_at
    rw [upd_getElem]
    by_cases hk : k = leaf
    · rw [if_pos hk, if_pos hk, hk, List.getElem?_eq_getElem hleaflt]
      rfl
    · rw [if_neg hk, if_neg hk, Nat.add_zero]
  have hwf2 : wf_arena (upd sel.1 leaf gd) := wf_transfer h2kids h2len hwf1
  have hnd : sel.2.reverse.Nodup := by
    rw [List.nodup_reverse]
    exact isPath_nodup hwf1 hpath
  have hbnd : ∀ x ∈ sel.2.reverse, x < (upd sel.1 leaf gd).length := by
    intro x hx
    rw [h2len]
    exact hpath.mem_lt x (List.mem_reverse.mp hx)
  have h3len : (backup r sel.2.reverse (upd sel.1 leaf gd)).length = sel.1.length := by
    rw [backup_length, h2len]
  have h3kids : kids_at (backup r sel.2.reverse (upd sel.1 leaf gd)) = kids_at sel.1 := by
    rw [backup_kids, h2kids]
  have h3dir : direct_at (backup r sel.2.reverse (upd sel.1 leaf gd)) =
      direct_at (upd sel.1 leaf gd) := backup_direct _ _ _
  have h3vis : ∀ k, visits_at (backup r sel.2.reverse (upd sel.1 leaf gd)) k =
      visits_at sel.1 k + (if k ∈ sel.2 then 1 else 0) := by
    intro k
    rw [backup_visits sel.2.reverse hnd _ hbnd r k, h2vis]
    by_cases hm : k ∈ sel.2
    · rw [if_pos hm, if_pos (List.mem_reverse.mpr hm)]
    · rw [if_neg hm, if_neg (fun hc => hm (List.mem_reverse.mp hc))]
  refine ⟨wf_transfer h3kids h3len hwf1, by rw [h3len]; exact hlen1, ?_⟩
  intro k
  rw [h3vis k, h3kids, h3dir, h2dir k]
  have hfun : (kids_at sel.1 k).map
      (visits_at (backup r sel.2.reverse (upd sel.1 leaf gd))) =
      (kids_at sel.1 k).map
        (fun j => visits_at sel.1 j + (if j ∈ sel.2 then 1 else 0)) := by
    apply List.map_congr_left
    intro j _
    exact h3vis j
  rw [hfun, sum_map_add (visits_at sel.1) (fun j => if j ∈ sel.2 then 1 else 0)
    (kids_at sel.1 k), sum_map_ite sel.2 (kids_at sel.1 k),
    path_filter_count hwf1 hpath k 0 hhead]
  have h0 : (0 : Nat) ∉ kids_at sel.1 k :=
    fun hc => absurd (hwf1.1 k 0 hc).1 (Nat.not_lt_zero k)
  rw [if_neg h0, Nat.add_zero]
  have hcount := hcnt1 k
  have hlastk : sel.2.getLast? = some leaf := by
    rw [hlast, hleaf]
  by_cases hm : k ∈ sel.2
  · by_cases hkl : k = leaf
    · have hc2 : ¬ (k ∈ sel.2 ∧ sel.2.getLast? ≠ some k) := by
        intro hc
        apply hc.2
        rw [hkl]
        exact hlastk
      rw [if_pos hm, if_pos hkl, if_neg hc2]
      omega
    · have hc2 : k ∈ sel.2 ∧ sel.2.getLast? ≠ some k := by
        refine ⟨hm, ?_⟩
        rw [hlastk]
        intro hc
        exact hkl (Option.some_inj.mp hc).symm
      rw [if_pos hm, if_neg hkl, if_pos hc2]
      omega
  · have hkl : k ≠ leaf := fun hc => hm (hc ▸ hleafmem)
    have hc2 : ¬ (k ∈ sel.2 ∧ sel.2.getLast? ≠ some k) := fun hc => hm hc.1
    rw [if_neg hm, if_neg hkl, if_neg hc2]
    omega

/-- One MCTS iteration preserves well-formedness, non-emptiness, and the
visit-count invariant. -/
theorem mcts_iter_inv (G : Game σ m) [DecidableEq m] (pick rng : Nat → Nat)
    (roll_fuel : Nat) (ar : List (MCTS_Node σ m))
    (hwf : wf_arena ar) (hlen : 0 < ar.length) (hcnt : count_ok ar) :
    wf_arena (mcts_iter G pick rng roll_fuel ar) ∧
      0 < (mcts_iter G pick rng roll_fuel ar).length ∧
      count_ok (mcts_iter G pick rng roll_fuel ar) := by
  obtain ⟨hle, hvis, hdir, hrew, hsum, hhead, hwfp⟩ :=
    tree_policy_spec G pick (ar.length + 1) ar 0
  obtain ⟨hwf1, hpath, _⟩ := hwfp hwf hlen
  have hcnt1 : count_ok (tree_policy G pick (ar.length + 1) ar 0).1 := by
    intro k
    rw [hsum k, hvis, hdir]
    exact hcnt k
  have h1len : 0 < (tree_policy G pick (ar.length + 1) ar 0).1.length :=
    lt_of_lt_of_le hlen hle
  simp only [mcts_iter]
  exact mcts_backup_phase_inv _ _ hwf1 hpath hhead hcnt1 h1len

/-- The MCTS iteration loop preserves the invariants. -/
theorem mcts_loop_inv (G : Game σ m) [DecidableEq m] (pick rng : Nat → Nat)
    (roll_fuel : Nat) :
    ∀ (t : Nat) (ar : List (MCTS_Node σ m)),
      wf_arena ar → 0 < ar.length → count_ok ar →
      wf_arena (mcts_loop G pick rng roll_fuel t ar) ∧
        0 < (mcts_loop G pick rng roll_fuel t ar).length ∧
        count_ok (mcts_loop G pick rng roll_fuel t ar) := by
  intro t
  induction t with
  | zero =>
    intro ar h1 h2 h3
    exact ⟨h1, h2, h3⟩
  | succ t ih =>
    intro ar h1 h2 h3
    obtain ⟨w1, w2, w3⟩ := mcts_iter_inv G pick rng roll_fuel ar h1 h2 h3
    exact ih _ w1 w2 w3

/-- The root arena of one `mcts` invocation is well-formed and satisfies
the visit-count invariant. -/
theorem mcts_root_arena_inv (G : Game σ m) [DecidableEq m]
    (pick rng : Nat → Nat) (roll_fuel iters : Nat) (s : σ) :
    count_ok (mcts_loop G pick rng roll_fuel iters
      [⟨s, [], [], 0, 0, 0⟩]) := by
  have hkids0 : ∀ i, kids_at [(⟨s, [], [], 0, 0, 0⟩ : MCTS_Node σ m)] i = [] := by
    intro i
    cases i with
    | zero => rfl
    | succ i => simp [kids_at]
  have hwf0 : wf_arena [(⟨s, [], [], 0, 0, 0⟩ : MCTS_Node σ m)] := by
    refine ⟨?_, ?_, ?_⟩
    · intro i j hj
      rw [hkids0 i] at hj
      exact absurd hj (List.not_mem_nil j)
    · intro i i' j hj _
      rw [hkids0 i] at hj
      exact absurd hj (List.not_mem_nil j)
    · intro i
      rw [hkids0 i]
      exact List.nodup_nil
  have hcnt0 : count_ok [(⟨s, [], [], 0, 0, 0⟩ : MCTS_Node σ m)] := by
    intro i
    rw [hkids0 i]
    cases i with
    | zero => rfl
    | succ i => simp [visits_at, direct_at]
  exact (mcts_loop_inv G pick rng roll_fuel iters _ hwf0 (by simp) hcnt0).2.2

/-- The liberty-difference heuristic is antisymmetric in the player
argument: swapping perspective negates the score. -/
theorem score_antisymm (G : Game σ m) (q : Nat) (s : σ) (hq : q ≤ 1) :
    score G q s = -(score G (1 - q) s) := by
  unfold score
  have h : 1 - (1 - q) = q := by omega
  rw [h]
  ring

/-- A small concrete Isolation-like game instance on eight states and two
actions per state, used to evaluate the search routines on concrete
inputs: players alternate by state parity, states 6 and 7 are terminal
with zero-sum utilities, and the heuristic substrate is arbitrary but
fixed. -/
def DemoGame : Game (Fin 8) (Fin 2) where
  player_id s := s.val % 2
  actions s := if s.val ≥ 6 then [] else [0, 1]
  result s a := ⟨(s.val + 2 * a.val + 1) % 8, Nat.mod_lt _ (by decide)⟩
  terminal_test s := s.val ≥ 6
  utility s p :=
    (if s.val = 6 then 1 else if s.val = 7 then -1 else 0) *
      (if p = 0 then 1 else -1)
  ply_count s := s.val
  locs s p := (s.val + p) % 8
  liberties s l := List.range ((s.val + l) % 3)
  prev_loc s p := (s.val + 2 * p) % 8

/-!
The claims.
-/

/-- C1: for every game state and every depth, the value computed and the
action returned by the alpha-beta minimax search (`alpha_beta_search`
driving the mutually recursive `max_value`/`min_value` with pruning) equal
the value and action returned by an unpruned exhaustive minimax search
(`minimax_search`) over the same game tree to the same depth. -/
theorem alpha_beta_matches_exhaustive_minimax {σ m : Type} (G : Game σ m)
    (hf : Nat → σ → ℤ) (p : Nat) (s : σ) (d : Nat) :
    alpha_beta_search G hf p s d = minimax_search G hf p s d :=
  alpha_beta_search_eq_minimax G hf p s d

/-- C2: for every zero-sum game state and every depth, the action chosen
by the negamax-with-alpha-beta driver (`NegamaxAlphaBeta` under
`negamax_search`) equals the action chosen by the standard
minimax-with-alpha-beta driver (`alpha_beta_search`) on the same state and
depth, the maximizing player being the state's acting player. -/
theorem negamax_action_matches_alpha_beta {σ m : Type} (G : Game σ m)
    (hf : Nat → σ → ℤ)
    (hple : ∀ s : σ, G.player_id s ≤ 1)
    (halt : ∀ (s : σ) (a : m), G.player_id (G.result s a) = 1 - G.player_id s)
    (hzs : ∀ s : σ, G.utility s 0 = -G.utility s 1)
    (hanti : ∀ (s : σ) (q : Nat), q ≤ 1 → hf q s = -(hf (1 - q) s))
    (s : σ) (d : Nat) :
    (negamax_search G hf s d).2 =
      (alpha_beta_search G hf (G.player_id s) s d).2 := by
  rw [negamax_search_eq_alpha_beta G hf hple halt hzs hanti s d]

theorem negamax_action_matches_alpha_beta_witness :
    (∀ s : Fin 8, DemoGame.player_id s ≤ 1) ∧
    (∀ (s : Fin 8) (a : Fin 2),
      DemoGame.player_id (DemoGame.result s a) = 1 - DemoGame.player_id s) ∧
    (∀ s : Fin 8, DemoGame.utility s 0 = -DemoGame.utility s 1) ∧
    (∀ (s : Fin 8) (q : Nat), q ≤ 1 →
      score DemoGame q s = -(score DemoGame (1 - q) s)) ∧
    (negamax_search DemoGame (fun q s => score DemoGame q s) (0 : Fin 8) 2).2 =
      (alpha_beta_search DemoGame (fun q s => score DemoGame q s)
        (DemoGame.player_id 0) (0 : Fin 8) 2).2 :=
  ⟨by decide, by decide, by decide,
   fun s q hq => score_antisymm DemoGame q s hq,
   negamax_action_matches_alpha_beta DemoGame
     (fun q s => score DemoGame q s) (by decide) (by decide) (by decide)
     (fun s q hq => score_antisymm DemoGame q s hq) 0 2⟩

/-- C3: for every root state with no legal actions (including every
terminal state, whose action list is empty), `alpha_beta_search` returns
the no-action sentinel (`none`) as its move and `mcts` signals that no
move is available (`none`); neither indexes into an empty action or child
list. -/
theorem no_actions_degrade_to_sentinel {σ m : Type} [DecidableEq m]
    (G : Game σ m) (hf : Nat → σ → ℤ) (p : Nat) (pick rng : Nat → Nat)
    (iter_limit roll_fuel d : Nat) (s : σ) (h : G.actions s = []) :
    (alpha_beta_search G hf p s d).2 = none ∧
      mcts G pick rng iter_limit roll_fuel s = none := by
  constructor
  · unfold alpha_beta_search
    rw [h]
    rfl
  · unfold mcts
    rw [h]
    rfl

theorem no_actions_degrade_to_sentinel_witness :
    DemoGame.actions (6 : Fin 8) = [] ∧
    ((alpha_beta_search DemoGame (fun q s => score DemoGame q s) 0 (6 : Fin 8) 3).2 = none ∧
      mcts DemoGame (fun _ => 0) (fun _ => 0) 10 4 (6 : Fin 8) = none) :=
  ⟨by decide,
   no_actions_degrade_to_sentinel DemoGame (fun q s => score DemoGame q s) 0
     (fun _ => 0) (fun _ => 0) 10 4 3 (6 : Fin 8) (by decide)⟩

/-- C4: for every terminal state and player, the aggressive heuristic
(`custom_heuristic`), which special-cases terminal states, returns exactly
the game's utility value for that player, not an approximation of it. -/
theorem custom_heuristic_terminal_exact {σ m : Type} (G : Game σ m)
    (p : Nat) (s : σ) (h : G.terminal_test s = true) :
    custom_heuristic G p s = (G.utility s p : ℚ) := by
  unfold custom_heuristic
  rw [if_pos h]

theorem custom_heuristic_terminal_exact_witness :
    DemoGame.terminal_test (6 : Fin 8) = true ∧
    custom_heuristic DemoGame 0 (6 : Fin 8) = (DemoGame.utility (6 : Fin 8) 0 : ℚ) :=
  ⟨by decide, custom_heuristic_terminal_exact DemoGame 0 (6 : Fin 8) (by decide)⟩

/-- C5: for every non-terminal state and the two players `p` and `1 - p`,
the liberty-difference heuristic (`score`) is antisymmetric under swapping
perspective: the value computed for one player is the negation of the
value computed for the other on the same state. -/
theorem score_swap_antisymmetric {σ m : Type} (G : Game σ m) (s : σ)
    (p : Nat) (_hterm : G.terminal_test s = false) (hp : p ≤ 1) :
    score G p s = -(score G (1 - p) s) :=
  score_antisymm G p s hp

theorem score_swap_antisymmetric_witness :
    DemoGame.terminal_test (0 : Fin 8) = false ∧ (0 : Nat) ≤ 1 ∧
    score DemoGame 0 (0 : Fin 8) = -(score DemoGame (1 - 0) (0 : Fin 8)) :=
  ⟨by decide, by decide,
   score_swap_antisymmetric DemoGame (0 : Fin 8) 0 (by decide) (by decide)⟩

/-- C6: for every input state and player, the aggressive heuristic's ratio
denominator (`custom_heuristic_denom`, i.e. `max(opponent_reachable_count,
1)`) is positive, so the division-by-zero branch is unreachable even when
the opponent's reachable count is zero. -/
theorem custom_heuristic_denom_pos {σ m : Type} (G : Game σ m) (s : σ)
    (p : Nat) : 0 < custom_heuristic_denom G p s :=
  lt_of_lt_of_le Nat.zero_lt_one (le_max_right _ _)

/-- C7: whenever `alpha_beta_search` returns an action, that action is the
first action, in the order produced by the state's `actions`, attaining
the maximal exhaustive minimax value among the root actions: every earlier
action has a strictly smaller value (ties keep the first action; the best
action is replaced only on a strictly greater value), no action has a
greater value, and the returned score is that action's value. -/
theorem alpha_beta_returns_first_argmax {σ m : Type} (G : Game σ m)
    (hf : Nat → σ → ℤ) (p : Nat) (s : σ) (d : Nat) (a : m)
    (h : (alpha_beta_search G hf p s d).2 = some a) :
    ∃ pre post, G.actions s = pre ++ a :: post ∧
      (∀ b ∈ pre, mm_min G hf p (G.result s b) (d - 1) <
        mm_min G hf p (G.result s a) (d - 1)) ∧
      (∀ b ∈ G.actions s, mm_min G hf p (G.result s b) (d - 1) ≤
        mm_min G hf p (G.result s a) (d - 1)) ∧
      (alpha_beta_search G hf p s d).1 =
        mm_min G hf p (G.result s a) (d - 1) := by
  rw [alpha_beta_search_eq_minimax G hf p s d] at h ⊢
  unfold minimax_search at h ⊢
  rcases mm_search_loop_char G (fun c => mm_min G hf p c (d - 1)) s
      (G.actions s) ⊥ none with ⟨heq, _⟩ | hr
  · rw [heq] at h
    exact absurd h (by simp)
  · obtain ⟨a2, pre, post, hsplit, hres, _, hpre, hpost⟩ := hr
    rw [hres] at h
    obtain rfl : a2 = a := Option.some_inj.mp h
    refine ⟨pre, post, hsplit, hpre, ?_, by rw [hres]⟩
    intro b hb
    rw [hsplit] at hb
    rcases List.mem_append.mp hb with hb | hb
    · exact (hpre b hb).le
    · rcases List.mem_cons.mp hb with rfl | hb
      · exact le_rfl
      · exact hpost b hb

theorem alpha_beta_returns_first_argmax_witness :
    (alpha_beta_search DemoGame (fun q s => score DemoGame q s) 0 (0 : Fin 8) 2).2 =
      some (1 : Fin 2) ∧
    ∃ pre post, DemoGame.actions (0 : Fin 8) = pre ++ (1 : Fin 2) :: post ∧
      (∀ b ∈ pre, mm_min DemoGame (fun q s => score DemoGame q s) 0
          (DemoGame.result 0 b) (2 - 1) <
        mm_min DemoGame (fun q s => score DemoGame q s) 0
          (DemoGame.result 0 1) (2 - 1)) ∧
      (∀ b ∈ DemoGame.actions (0 : Fin 8),
        mm_min DemoGame (fun q s => score DemoGame q s) 0
          (DemoGame.result 0 b) (2 - 1) ≤
        mm_min DemoGame (fun q s => score DemoGame q s) 0
          (DemoGame.result 0 1) (2 - 1)) ∧
      (alpha_beta_search DemoGame (fun q s => score DemoGame q s) 0 (0 : Fin 8) 2).1 =
        mm_min DemoGame (fun q s => score DemoGame q s) 0
          (DemoGame.result 0 1) (2 - 1) :=
  ⟨by decide,
   alpha_beta_returns_first_argmax DemoGame (fun q s => score DemoGame q s)
     0 (0 : Fin 8) 2 1 (by decide)⟩

/-- C8: for every state on the game's first plies (`ply_count < 2`) with a
nonempty action list, `get_action` submits exactly one action before any
search: the uniformly random choice from the legal actions given by the
injected random index (`rand` modulo the number of legal actions), and
every submitted action is legal. -/
theorem get_action_first_ply_random {σ m : Type} [DecidableEq m]
    (G : Game σ m) (rand : Nat) (pick rng : Nat → Nat)
    (iter_limit roll_fuel : Nat) (s : σ)
    (hply : G.ply_count s < 2) (hact : G.actions s ≠ []) :
    get_action G rand pick rng iter_limit roll_fuel s =
      ((G.actions s)[rand % (G.actions s).length]?).toList ∧
    ∀ x ∈ get_action G rand pick rng iter_limit roll_fuel s,
      x ∈ G.actions s := by
  have hmain : get_action G rand pick rng iter_limit roll_fuel s =
      ((G.actions s)[rand % (G.actions s).length]?).toList := by
    cases hga : G.actions s with
    | nil => exact absurd hga hact
    | cons a rest =>
      unfold get_action
      rw [if_pos hply, hga]
      rw [List.getElem?_eq_getElem (Nat.mod_lt _ (by simp))]
      simp [List.get_eq_getElem]
  refine ⟨hmain, ?_⟩
  intro x hx
  rw [hmain] at hx
  cases ho : (G.actions s)[rand % (G.actions s).length]? with
  | none =>
    rw [ho] at hx
    exact absurd hx (by simp)
  | some y =>
    rw [ho] at hx
    have hxy : x = y := by simpa using hx
    subst hxy
    exact List.getElem?_mem ho

theorem get_action_first_ply_random_witness :
    DemoGame.ply_count (1 : Fin 8) < 2 ∧ DemoGame.actions (1 : Fin 8) ≠ [] ∧
    (get_action DemoGame 5 (fun _ => 0) (fun _ => 0) 10 4 (1 : Fin 8) =
      ((DemoGame.actions (1 : Fin 8))[5 % (DemoGame.actions (1 : Fin 8)).length]?).toList ∧
     ∀ x ∈ get_action DemoGame 5 (fun _ => 0) (fun _ => 0) 10 4 (1 : Fin 8),
       x ∈ DemoGame.actions (1 : Fin 8)) :=
  ⟨by decide, by decide,
   get_action_first_ply_random DemoGame 5 (fun _ => 0) (fun _ => 0) 10 4
     (1 : Fin 8) (by decide) (by decide)⟩

/-- C9 (amended): throughout one invocation of `mcts`, every tree node's
visit count equals its own direct rollouts attributed during
backpropagation plus the sum of its children's visit counts, and the
selection/expansion phase (`tree_policy`) never modifies any node's
accumulated reward total — rewards change only during backpropagation. -/
theorem mcts_visit_count_invariant :
    (∀ (τ μ : Type) [DecidableEq μ] (G : Game τ μ) (pick rng : Nat → Nat)
      (roll_fuel iters : Nat) (s : τ),
      count_ok (mcts_loop G pick rng roll_fuel iters [⟨s, [], [], 0, 0, 0⟩])) ∧
    (∀ (τ μ : Type) [DecidableEq μ] (G : Game τ μ) (pick : Nat → Nat)
      (f : Nat) (ar : List (MCTS_Node τ μ)) (i : Nat),
      reward_at (tree_policy G pick f ar i).1 = reward_at ar) :=
  ⟨fun _ _ _ G pick rng roll_fuel iters s =>
    mcts_root_arena_inv G pick rng roll_fuel iters s,
   fun _ _ _ G pick f ar i => (tree_policy_spec G pick f ar i).2.2.2.1⟩

/-- C9 (counterexample to the original claim): after two `mcts` iterations
on the demo game the root node has visit count 2 but zero direct rollouts,
so its visit count is not 1 plus the sum of its own direct rollouts; and
node 1's accumulated reward total decreases from the second to the third
iteration, so reward totals are not never-decremented. -/
theorem mcts_visit_count_not_one_plus_direct :
    ¬ (visits_at (mcts_loop DemoGame (fun _ => 0) (fun _ => 0) 4 2
        [⟨(0 : Fin 8), [], [], 0, 0, 0⟩]) 0 =
      1 + direct_at (mcts_loop DemoGame (fun _ => 0) (fun _ => 0) 4 2
        [⟨(0 : Fin 8), [], [], 0, 0, 0⟩]) 0) ∧
    reward_at (mcts_loop DemoGame (fun _ => 0) (fun _ => 0) 8 3
        [⟨(0 : Fin 8), [], [], 0, 0, 0⟩]) 1 <
      reward_at (mcts_loop DemoGame (fun _ => 0) (fun _ => 0) 8 2
        [⟨(0 : Fin 8), [], [], 0, 0, 0⟩]) 1 := by
  constructor
  · decide
  · decide

/-- C10: for every state, window, and depth `d`, the mutually recursive
`max_value`/`min_value` and `NegamaxAlphaBeta` terminate: any explicit
call-stack budget exceeding `d` makes the fueled variants return the total
functions' values, because every recursive call decrements the remaining
depth and recursion bottoms out at depth zero or a terminal state. -/
theorem search_terminates_within_depth_fuel {σ m : Type} (G : Game σ m)
    (hf : Nat → σ → ℤ) (p : Nat) (f d : Nat) (h : d < f) (s : σ) (A B : EV) :
    max_value_fuel G hf p f s A B d = some (max_value G hf p s A B d) ∧
    min_value_fuel G hf p f s A B d = some (min_value G hf p s A B d) ∧
    NegamaxAlphaBeta_fuel G hf f s A B d =
      some (NegamaxAlphaBeta G hf s A B d) :=
  ⟨(minmax_value_fuel_eq G hf p f d h s A B).1,
   (minmax_value_fuel_eq G hf p f d h s A B).2,
   NegamaxAlphaBeta_fuel_eq G hf f d h s A B⟩

theorem search_terminates_within_depth_fuel_witness :
    1 < 2 ∧
    (max_value_fuel DemoGame (fun q s => score DemoGame q s) 0 2 (0 : Fin 8) ⊥ ⊤ 1 =
      some (max_value DemoGame (fun q s => score DemoGame q s) 0 (0 : Fin 8) ⊥ ⊤ 1) ∧
    min_value_fuel DemoGame (fun q s => score DemoGame q s) 0 2 (0 : Fin 8) ⊥ ⊤ 1 =
      some (min_value DemoGame (fun q s => score DemoGame q s) 0 (0 : Fin 8) ⊥ ⊤ 1) ∧
    NegamaxAlphaBeta_fuel DemoGame (fun q s => score DemoGame q s) 2 (0 : Fin 8) ⊥ ⊤ 1 =
      some (NegamaxAlphaBeta DemoGame (fun q s => score DemoGame q s) (0 : Fin 8) ⊥ ⊤ 1)) :=
  ⟨by decide,
   search_terminates_within_depth_fuel DemoGame (fun q s => score DemoGame q s)
     0 2 1 (by decide) (0 : Fin 8) ⊥ ⊤⟩

end Isolation
